import Mathlib

/-!
# Verification of the vjsonschema registry and compilation engine

A shallow embedding of the Go package `vjsonschema` (files `validator.go`,
`builder.go`, `utils.go`) together with proofs about its behaviour.

Modelling conventions:
* Go `map[string]T` values are modelled as insertion-ordered association
  lists `List (String × T)`; map assignment is `updAssoc` (replace in place
  or append), membership is `containsKeyB`, and map iteration is list order.
* Go byte slices holding schema text are modelled as `String`.
* `encoding/json` values are modelled by the inductive type `Json`;
  `json.Unmarshal` of a byte slice into `map[string]interface{}` is modelled
  by taking the parsed `Json` value as the input, and `json.Marshal` is
  modelled by `jsonMarshal` (Go marshals maps with sorted keys).
* The external engine `gojsonschema` is out of scope per the package design;
  it is modelled by the abstract `Engine` record: `addOk` says whether
  `SchemaLoader.AddSchema` accepts a `(url, body)` pair, `compileSchema`
  produces an opaque compiled schema from the loader contents and a body,
  and `validate` produces the engine's structured result.
* Unbounded recursion (over nested `definitions` objects, over the reference
  graph, and over input text) is expressed with an explicit `Nat` fuel
  argument so that every definition is structurally recursive and kernel
  reducible; wrappers instantiate the fuel with a provably sufficient bound.
-/

/-! ## Association list primitives (Go `map[string]T`) -/

def lookupA {α : Type} : List (String × α) → String → Option α
  | [], _ => none
  | (k, v) :: rest, key => if k = key then some v else lookupA rest key

def containsKeyB {α : Type} (l : List (String × α)) (k : String) : Bool :=
  l.any (fun p => p.1 = k)

/-- Go map assignment `m[k] = v`: replace the binding in place if the key is
present, otherwise append a new binding. -/
def updAssoc {α : Type} : List (String × α) → String → α → List (String × α)
  | [], k, v => [(k, v)]
  | (k0, v0) :: rest, k, v =>
    if k0 = k then (k, v) :: rest else (k0, v0) :: updAssoc rest k v

/-- Add an element to a list if it is not already there (Go set-as-map
insertion, keeping first-insertion order). -/
def insertIfAbsent (l : List String) (x : String) : List String :=
  if x ∈ l then l else l ++ [x]

theorem lookupA_isSome_iff_containsKeyB {α : Type} (l : List (String × α))
    (k : String) : (lookupA l k).isSome = containsKeyB l k := by
  induction l with
  | nil => rfl
  | cons p rest ih =>
    obtain ⟨k', v⟩ := p
    by_cases h : k' = k <;> simp [lookupA, containsKeyB, h] at ih ⊢
    · exact ih

theorem containsKeyB_of_lookupA {α : Type} {l : List (String × α)} {k : String}
    {v : α} (h : lookupA l k = some v) : containsKeyB l k = true := by
  rw [← lookupA_isSome_iff_containsKeyB, h]
  rfl

theorem lookupA_eq_none_of_not_containsKeyB {α : Type} {l : List (String × α)}
    {k : String} (h : containsKeyB l k = false) : lookupA l k = none := by
  cases hl : lookupA l k with
  | none => rfl
  | some v =>
    rw [← lookupA_isSome_iff_containsKeyB, hl] at h
    simp at h

theorem lookupA_updAssoc_self {α : Type} (l : List (String × α)) (k : String)
    (v : α) : lookupA (updAssoc l k v) k = some v := by
  induction l with
  | nil => simp [updAssoc, lookupA]
  | cons p rest ih =>
    obtain ⟨k0, v0⟩ := p
    by_cases h : k0 = k
    · simp [updAssoc, h, lookupA]
    · simp [updAssoc, h, lookupA, ih]

theorem lookupA_updAssoc_ne {α : Type} (l : List (String × α)) (k k' : String)
    (v : α) (h : k' ≠ k) : lookupA (updAssoc l k v) k' = lookupA l k' := by
  induction l with
  | nil => simp [updAssoc, lookupA, Ne.symm h]
  | cons p rest ih =>
    obtain ⟨k0, v0⟩ := p
    by_cases h0 : k0 = k
    · subst h0
      simp [updAssoc, lookupA, Ne.symm h]
    · by_cases hq : k0 = k'
      · simp [updAssoc, h0, lookupA, hq, h]
      · simp [updAssoc, h0, lookupA, hq, h, ih]

theorem containsKeyB_updAssoc {α : Type} (l : List (String × α)) (k k' : String)
    (v : α) : containsKeyB (updAssoc l k v) k' = (containsKeyB l k' || k' = k) := by
  by_cases h : k' = k
  · subst h
    have h1 := lookupA_updAssoc_self l k' v
    have h2 := lookupA_isSome_iff_containsKeyB (updAssoc l k' v) k'
    rw [h1] at h2
    simp at h2
    simp [← h2]
  · have h1 := lookupA_updAssoc_ne l k k' v h
    have h2 := lookupA_isSome_iff_containsKeyB (updAssoc l k v) k'
    rw [h1, lookupA_isSome_iff_containsKeyB] at h2
    simp [← h2, h]

/-! ## The symbolic reference scanner

Embedding of the Go regular expression
`"\$ref"\s*:\s*"{([^"]*?)}"` (`refRegex` in `utils.go` / `validator.go`) and
of `regexp.ReplaceAllFunc` / `FindAllSubmatch`, which scan the input left to
right for non-overlapping leftmost matches.  Go `\s` is `[\t\n\f\r ]`.
The capture group is lazy, so it ends at the first `}` that is immediately
followed by `"`. -/

def isGoWs (c : Char) : Bool :=
  c = ' ' || c = '\t' || c = '\n' || c = '\x0c' || c = '\r'

def skipWs : List Char → List Char
  | [] => []
  | c :: rest => if isGoWs c then skipWs rest else c :: rest

/-- The lazy capture `([^"]*?)}"`: the shortest run of non-quote characters
followed by `}"`.  Returns the captured name and the remaining input. -/
def captureRef : List Char → Option (List Char × List Char)
  | [] => none
  | [_] => none
  | c :: d :: rest =>
    if c = '}' ∧ d = '"' then some ([], rest)
    else if c = '"' then none
    else
      match captureRef (d :: rest) with
      | some (cap, after) => some (c :: cap, after)
      | none => none

/-- After `"$ref"` and the colon: optional whitespace, then `"{`, then the
lazy capture. -/
def matchAfterColon (l : List Char) : Option (List Char × List Char) :=
  match skipWs l with
  | '"' :: '{' :: r3 => captureRef r3
  | _ => none

/-- After the literal `"$ref"`: optional whitespace, then `:`. -/
def matchAfterLit (l : List Char) : Option (List Char × List Char) :=
  match skipWs l with
  | ':' :: r2 => matchAfterColon r2
  | _ => none

/-- Try to match `refRegex` at the start of the input.  On success returns the
captured reference name and the input after the whole match. -/
def matchRefAt (l : List Char) : Option (List Char × List Char) :=
  match l with
  | '"' :: '$' :: 'r' :: 'e' :: 'f' :: '"' :: r1 => matchAfterLit r1
  | _ => none

/-- The canonical replacement text `"$ref":"NAME"` produced by
`fmt.Sprintf` in `SchemaRefReplace`. -/
def refReplacementChars (f : String → String) (cap : List Char) : List Char :=
  '"' :: '$' :: 'r' :: 'e' :: 'f' :: '"' :: ':' :: '"' ::
    ((f (String.mk cap)).data ++ ['"'])

/-- `regexp.ReplaceAllFunc` specialised to `refRegex` with the replacement
used by `SchemaRefReplace`.  The fuel is instantiated with the input length,
which is always sufficient. -/
def srrAux (f : String → String) : Nat → List Char → List Char
  | 0, l => l
  | _ + 1, [] => []
  | n + 1, c :: rest =>
    match matchRefAt (c :: rest) with
    | some (cap, after) => refReplacementChars f cap ++ srrAux f n after
    | none => c :: srrAux f n rest

/-- Embedding of `SchemaRefReplace` (`utils.go` lines 13-18,
`validator.go` lines 21-26): replaces all `$ref` values that are surrounded
by `{` and `}` using the provided replacement function. -/
def SchemaRefReplace (schema : String) (replaceFunc : String → String) : String :=
  String.mk (srrAux replaceFunc schema.data.length schema.data)

/-- `regexp.FindAllSubmatch` specialised to `refRegex`: the list of captured
reference names, in match order. -/
def findRefsAux : Nat → List Char → List String
  | 0, _ => []
  | _ + 1, [] => []
  | n + 1, c :: rest =>
    match matchRefAt (c :: rest) with
    | some (cap, after) => String.mk cap :: findRefsAux n after
    | none => findRefsAux n rest

def findRefsStr (s : String) : List String :=
  findRefsAux s.data.length s.data

/-- Collecting the captures into a `map[string]struct{}` de-duplicates them;
first-insertion order is kept. -/
def dedupKeep (l : List String) : List String :=
  l.foldl insertIfAbsent []

/-! ## JSON values and Go `json.Marshal`

`Json` models the result of `json.Unmarshal` into `interface{}`; objects are
association lists in Go map iteration order.  `json.Marshal` prints object
keys in sorted order and performs the standard string escaping. -/

inductive Json where
  | null
  | bool (b : Bool)
  | num (n : Int)
  | str (s : String)
  | arr (elems : List Json)
  | obj (fields : List (String × Json))

/-- A size measure on `Json`, used as recursion fuel for functions that walk
into nested objects. -/
def jsize : Json → Nat
  | Json.null => 1
  | Json.bool _ => 1
  | Json.num _ => 1
  | Json.str _ => 1
  | Json.arr xs => 1 + (xs.attach.map (fun p => jsize p.1)).sum
  | Json.obj fs => 1 + (fs.attach.map (fun p => jsize p.1.2)).sum
decreasing_by
  · have h1 := List.sizeOf_lt_of_mem p.2
    simp [Json.arr.sizeOf_spec]
    omega
  · have h1 := List.sizeOf_lt_of_mem p.2
    obtain ⟨⟨k, v⟩, hm⟩ := p
    simp [Json.obj.sizeOf_spec] at h1 ⊢
    omega

def hexDigitChar (n : Nat) : Char :=
  if n < 10 then Char.ofNat ('0'.toNat + n) else Char.ofNat ('a'.toNat + n - 10)

/-- Escaping of one character inside a JSON string, as Go `encoding/json`
does it (including HTML escaping of `<`, `>`, `&`). -/
def escChar (c : Char) : String :=
  if c = '"' then "\\\""
  else if c = '\\' then "\\\\"
  else if c = '\n' then "\\n"
  else if c = '\r' then "\\r"
  else if c = '\t' then "\\t"
  else if c = '<' then "\\u003c"
  else if c = '>' then "\\u003e"
  else if c = '&' then "\\u0026"
  else if c.toNat < 32 then
    "\\u00" ++ String.mk [hexDigitChar (c.toNat / 16), hexDigitChar (c.toNat % 16)]
  else String.mk [c]

def jsonQuote (s : String) : String :=
  "\"" ++ String.join (s.data.map escChar) ++ "\""

/-- Insert into a key-sorted field list (Go sorts map keys when marshalling). -/
def insSortedF (p : String × Json) : List (String × Json) → List (String × Json)
  | [] => [p]
  | q :: rest => if p.1 ≤ q.1 then p :: q :: rest else q :: insSortedF p rest

def sortFields (l : List (String × Json)) : List (String × Json) :=
  l.foldr insSortedF []

/-- Fueled worker for `json.Marshal`; `jsonMarshal` instantiates the fuel
with `sizeOf`, which always suffices. -/
def jm : Nat → Json → String
  | 0, _ => ""
  | _ + 1, Json.null => "null"
  | _ + 1, Json.bool b => if b then "true" else "false"
  | _ + 1, Json.num n => toString n
  | _ + 1, Json.str s => jsonQuote s
  | n + 1, Json.arr xs =>
    "[" ++ String.intercalate "," (xs.map (jm n)) ++ "]"
  | n + 1, Json.obj fs =>
    "\x7b" ++
      String.intercalate ","
        ((sortFields fs).map (fun p => jsonQuote p.1 ++ ":" ++ jm n p.2)) ++
      "\x7d"

def jsonMarshal (j : Json) : String := jm (jsize j) j

/-! ## The registry (`builder.schemas`) and the registrar -/

structure RegisteredSchema where
  source : String
  requiredReferences : List String
  deriving DecidableEq

abbrev Registry := List (String × RegisteredSchema)

/-- Go `delete(schema, "definitions")`. -/
def eraseField (l : List (String × Json)) (k : String) : List (String × Json) :=
  l.filter (fun p => p.1 != k)

def findField : List (String × Json) → String → Option Json
  | [], _ => none
  | (k, v) :: rest, key => if k = key then some v else findField rest key

/-- The `registeredSchema` value built at the end of `addSchema`
(`validator.go` lines 165-175): the body is re-marshalled with the
`definitions` key deleted, and the required references are the de-duplicated
captures of `refRegex` over those bytes. -/
def mkRegistered (fields : List (String × Json)) : RegisteredSchema :=
  let b := jsonMarshal (Json.obj (eraseField fields "definitions"))
  ⟨b, dedupKeep (findRefsStr b)⟩

def parseErrMsg : String := "schema is not is correct json format"
def defsNotObjMsg : String := "expected definitions key of schema to be an object"
def defNotObjMsg (defKey defName : String) : String :=
  "expected definition for " ++ defKey ++ " to be an object at path: " ++ defName
def wrapAddMsg (defName : String) (inner : String) : String :=
  "failed to add schema with name: " ++ defName ++ ": " ++ inner

/-- The two mutually recursive activities inside `builder.addSchema`:
processing one schema object, and looping over a `definitions` object. -/
inductive AddTask where
  | schema (name : String) (fields : List (String × Json))
  | defs (name : String) (entries : List (String × Json))

/-- Embedding of `(*builder).addSchema` from `validator.go` lines 150-177.
Returns the registry after the call (the Go method mutates `v.schemas` in
place, so on error the partially updated registry survives) together with
the error, if any.  Definition names are composite: `name + defKey`. -/
def addStep : Nat → Registry → AddTask → Registry × Option String
  | 0, reg, _ => (reg, some "recursion fuel exhausted")
  | fuel + 1, reg, AddTask.schema name fields =>
    (match findField fields "definitions" with
     | some (Json.obj defsMap) =>
       (match addStep fuel reg (AddTask.defs name defsMap) with
        | (r, some e) => (r, some e)
        | (r, none) => (updAssoc r name (mkRegistered fields), none))
     | some _ => (reg, some defsNotObjMsg)
     | none => (updAssoc reg name (mkRegistered fields), none))
  | _ + 1, reg, AddTask.defs _ [] => (reg, none)
  | fuel + 1, reg, AddTask.defs name ((defKey, dv) :: rest) =>
    (match dv with
     | Json.obj defMap =>
       (match addStep fuel reg (AddTask.schema (name ++ defKey) defMap) with
        | (r2, some e) => (r2, some (wrapAddMsg (name ++ defKey) e))
        | (r2, none) => addStep fuel r2 (AddTask.defs name rest))
     | _ => (reg, some (defNotObjMsg defKey (name ++ defKey))))

/-- Embedding of `(*builder).AddSchema` from `validator.go` lines 94-100.
`json.Unmarshal` into `map[string]interface{}` is modelled by taking the
parsed `Json` value; a non-object value is the unmarshalling error case. -/
def AddSchema (reg : Registry) (name : String) (j : Json) :
    Registry × Option String :=
  match j with
  | Json.obj fields => addStep (jsize (Json.obj fields)) reg (AddTask.schema name fields)
  | _ => (reg, some parseErrMsg)

/-- Embedding of the older `(*builder).addSchema` from `builder.go` lines
152-181: definitions are registered under the bare definition key, and a
name collision is reported instead of overwriting. -/
def builderAddStep : Nat → Registry → AddTask → Registry × Option String
  | 0, reg, _ => (reg, some "recursion fuel exhausted")
  | fuel + 1, reg, AddTask.schema name fields =>
    (match findField fields "definitions" with
     | some (Json.obj defsMap) =>
       (match builderAddStep fuel reg (AddTask.defs name defsMap) with
        | (r, some e) => (r, some e)
        | (r, none) =>
          if containsKeyB r name then
            (r, some ("multiple definitions for schema with name: " ++ name))
          else (updAssoc r name (mkRegistered fields), none))
     | some _ => (reg, some defsNotObjMsg)
     | none =>
       if containsKeyB reg name then
         (reg, some ("multiple definitions for schema with name: " ++ name))
       else (updAssoc reg name (mkRegistered fields), none))
  | _ + 1, reg, AddTask.defs _ [] => (reg, none)
  | fuel + 1, reg, AddTask.defs _ ((defKey, dv) :: rest) =>
    (match dv with
     | Json.obj defMap =>
       (match builderAddStep fuel reg (AddTask.schema defKey defMap) with
        | (r2, some e) => (r2, some (wrapAddMsg defKey e))
        | (r2, none) => builderAddStep fuel r2 (AddTask.defs "" rest))
     | _ => (reg, some ("expected definition for " ++ defKey ++ " to be an object")))

/-- Embedding of `(*builder).AddSchema` from `builder.go` lines 82-104. -/
def builderAddSchema (reg : Registry) (name : String) (j : Json) :
    Registry × Option String :=
  match j with
  | Json.obj fields =>
    builderAddStep (jsize (Json.obj fields)) reg (AddTask.schema name fields)
  | _ => (reg, some "schema must be a correctly formatted json object")

/-- Embedding of `GetSchemas` (`validator.go` lines 103-109): a mapping of
name to the stored source bytes. -/
def GetSchemas (reg : Registry) : List (String × String) :=
  reg.map (fun p => (p.1, p.2.source))

/-! ## The external engine and the compilation pass

`gojsonschema` is external to this system: it is modelled by the abstract
`Engine` record.  `addOk` is whether `SchemaLoader.AddSchema` accepts a
`(url, body)` pair, `compileSchema` turns the loader contents plus a schema
body into an opaque compiled schema (or fails), and `validate` is
`(*gojsonschema.Schema).Validate`. -/

structure CompiledSchema where
  loaderState : List (String × String)
  compiledSource : String
  deriving DecidableEq

structure GoResult where
  valid : Bool
  resultErrors : List String
  deriving DecidableEq

structure Engine where
  addOk : String → String → Bool
  compileSchema : List (String × String) → String → Option CompiledSchema
  validate : CompiledSchema → String → GoResult

/-- Embedding of `refToFakeExternal` (`validator.go` lines 213-215). -/
def refToFakeExternal (ref : String) : String :=
  "file://--jsonschema--/" ++ ref

/-- The structured error values produced by `Compile` and `Validate`;
`VErr.render` gives the exact Go error message.  `fuelOut` is an embedding
artifact that provably never occurs (see `compStep_no_fuelOut`). -/
inductive VErr where
  | missingRefs (refs : List String)
  | loadFail (name : String)
  | compileFail (name : String)
  | unknownSchema (name : String)
  | fuelOut
  deriving DecidableEq

def VErr.render : VErr → String
  | VErr.missingRefs l => "missing required references: " ++ String.intercalate ", " l
  | VErr.loadFail n => "gojsonschema: failed to load schema with name: " ++ n
  | VErr.compileFail n => "gojsonschema: failed to compile schema with name: " ++ n
  | VErr.unknownSchema n => "schema does not exist with name: " ++ n
  | VErr.fuelOut => "recursion fuel exhausted"

/-- Go zero value of `registeredSchema`, returned by `schemas[name]` for a
missing key. -/
def lookupSchemaD (schemas : Registry) (name : String) : RegisteredSchema :=
  (lookupA schemas name).getD ⟨"", []⟩

/-- The mutable state threaded through `addSchemasCompile`: the
`schemasAdded` map and the loader's registered `(url, body)` pairs, in
registration order. -/
structure CompState where
  schemasAdded : List (String × Bool)
  loader : List (String × String)
  deriving DecidableEq

def getAdded (sa : List (String × Bool)) (n : String) : Bool :=
  (lookupA sa n).getD false

/-- The two activities inside `addSchemasCompile` (`validator.go` lines
194-211): visiting one schema name, and looping over a reference list. -/
inductive CompTask where
  | visit (name : String)
  | refs (l : List String)
  deriving DecidableEq

/-- Embedding of `addSchemasCompile`.  `visit name` is one invocation of the
Go function: it loops over the schema's required references (the `refs`
task), inserting each reference that is not yet a key of `schemasAdded`
with value `false` and recursing into it; afterwards, if `name` is not
marked done, it is marked `true` and its body (with symbolic references
rewritten by `refToFakeExternal`) is registered into the loader.  The fuel
only bounds the recursion depth and is an embedding artifact. -/
def compStep (schemas : Registry) (eng : Engine) :
    Nat → CompState → CompTask → Except VErr CompState
  | 0, _, _ => Except.error VErr.fuelOut
  | fuel + 1, st, CompTask.visit name =>
    (match compStep schemas eng fuel st
        (CompTask.refs (lookupSchemaD schemas name).requiredReferences) with
     | Except.error e => Except.error e
     | Except.ok st1 =>
       if getAdded st1.schemasAdded name then Except.ok st1
       else
         let url := refToFakeExternal name
         let body := SchemaRefReplace (lookupSchemaD schemas name).source refToFakeExternal
         if eng.addOk url body then
           Except.ok ⟨updAssoc st1.schemasAdded name true, st1.loader ++ [(url, body)]⟩
         else Except.error (VErr.loadFail name))
  | _ + 1, st, CompTask.refs [] => Except.ok st
  | fuel + 1, st, CompTask.refs (r :: rs) =>
    if containsKeyB st.schemasAdded r then
      compStep schemas eng fuel st (CompTask.refs rs)
    else
      (match compStep schemas eng fuel
          ⟨updAssoc st.schemasAdded r false, st.loader⟩ (CompTask.visit r) with
       | Except.error e => Except.error e
       | Except.ok st1 => compStep schemas eng fuel st1 (CompTask.refs rs))

/-- The per-target loop body of `Compile` (`validator.go` lines 131-139):
`addSchemasCompile` is invoked for every required reference of the target,
with no membership guard, against the same loader and `schemasAdded` map. -/
def compileTarget (schemas : Registry) (eng : Engine) (fuel : Nat) :
    CompState → List String → Except VErr CompState
  | st, [] => Except.ok st
  | st, n :: ns =>
    match compStep schemas eng fuel st (CompTask.visit n) with
    | Except.error e => Except.error e
    | Except.ok st1 => compileTarget schemas eng fuel st1 ns

/-- All names that can ever enter `schemasAdded`: the registered names and
every recorded required reference. -/
def candidates (reg : Registry) : List String :=
  reg.map (fun p => p.1) ++ reg.flatMap (fun p => p.2.requiredReferences)

def potOf (reg : Registry) (c : String) : Nat :=
  2 + (lookupSchemaD reg c).requiredReferences.length

/-- An upper bound on the recursion depth of `addSchemasCompile`;
used to instantiate the fuel. -/
def compileFuel (reg : Registry) : Nat :=
  2 * ((candidates reg).map (potOf reg)).sum + 3

/-- The missing-reference collection pass of `Compile` (`validator.go`
lines 115-129): for every registered schema and every required reference
that is not a registered name, the string `ref(name)` is added to a set;
iteration is in registry order and the set keeps first-insertion order. -/
def missingAdd (reg : Registry) (name : String) :
    List String → List String → List String
  | [], acc => acc
  | r :: rs, acc =>
    missingAdd reg name rs
      (if containsKeyB reg r then acc else insertIfAbsent acc (r ++ "(" ++ name ++ ")"))

def missingAll (reg : Registry) :
    List (String × RegisteredSchema) → List String → List String
  | [], acc => acc
  | (name, s) :: rest, acc =>
    missingAll reg rest (missingAdd reg name s.requiredReferences acc)

def missingList (reg : Registry) : List String := missingAll reg reg []

structure ValidatorT where
  schemas : List (String × CompiledSchema)
  deriving DecidableEq

/-- The per-target compilation loop of `Compile` (`validator.go` lines
131-145): for each registered schema, a fresh loader and `schemasAdded` map
(seeded with the target mapped to `false`) are created, the dependency
closure is registered, and the target body (references rewritten) is
compiled by the external engine. -/
def compileLoop (reg : Registry) (eng : Engine) :
    List (String × RegisteredSchema) → List (String × CompiledSchema) →
    Except VErr ValidatorT
  | [], acc => Except.ok ⟨acc⟩
  | (name, s) :: rest, acc =>
    match compileTarget reg eng (compileFuel reg) ⟨[(name, false)], []⟩
        s.requiredReferences with
    | Except.error e => Except.error e
    | Except.ok st =>
      match eng.compileSchema st.loader (SchemaRefReplace s.source refToFakeExternal) with
      | none => Except.error (VErr.compileFail name)
      | some cs => compileLoop reg eng rest (updAssoc acc name cs)

/-- Embedding of `(*builder).Compile` (`validator.go` lines 112-148).  The
Go method never writes `v.schemas`; the registry is returned alongside the
result to make that explicit. -/
def Compile (reg : Registry) (eng : Engine) : Except VErr ValidatorT × Registry :=
  match missingList reg with
  | [] => (compileLoop reg eng reg [], reg)
  | l => (Except.error (VErr.missingRefs l), reg)

/-- Embedding of `(*validator).Validate` (`validator.go` lines 184-192):
look the name up in the compiled map, fail if absent, otherwise delegate to
the stored compiled schema and return its result unchanged.  (The two
`log.Println` calls are I/O only and have no effect on the result.) -/
def Validate (v : ValidatorT) (eng : Engine) (schemaName instanceBytes : String) :
    Except VErr GoResult :=
  match lookupA v.schemas schemaName with
  | none => Except.error (VErr.unknownSchema schemaName)
  | some schema => Except.ok (eng.validate schema instanceBytes)

/-! ## Lemmas about the reference scanner -/

theorem skipWs_length (l : List Char) : (skipWs l).length ≤ l.length := by
  induction l with
  | nil => simp [skipWs]
  | cons c rest ih =>
    by_cases h : isGoWs c
    · simp only [skipWs, h, if_true, List.length_cons]
      exact Nat.le_succ_of_le ih
    · simp [skipWs, h]

theorem captureRef_length (l : List Char) : ∀ cap after : List Char,
    captureRef l = some (cap, after) → after.length + 2 ≤ l.length := by
  induction l with
  | nil => intro cap after h; simp [captureRef] at h
  | cons c rest ih =>
    intro cap after h
    cases rest with
    | nil => simp [captureRef] at h
    | cons d rest2 =>
      by_cases hcd : c = '}' ∧ d = '"'
      · simp only [captureRef, hcd, if_true] at h
        simp at h
        obtain ⟨h1, h2⟩ := h
        subst h2
        simp
      · simp only [captureRef, hcd, if_false] at h
        by_cases hc : c = '"'
        · simp [hc] at h
        · rw [if_neg hc] at h
          cases h1 : captureRef (d :: rest2) with
          | none => rw [h1] at h; simp at h
          | some p =>
            obtain ⟨cap2, after2⟩ := p
            rw [h1] at h
            have h6 : c :: cap2 = cap ∧ after2 = after := by
              simpa using h
            obtain ⟨h2, h3⟩ := h6
            subst h3
            have h4 := ih cap2 after2 h1
            simp at h4 ⊢
            omega

theorem matchAfterColon_length (l : List Char) (cap after : List Char)
    (h : matchAfterColon l = some (cap, after)) : after.length + 4 ≤ l.length := by
  unfold matchAfterColon at h
  split at h
  · rename_i r3 hws
    have h1 := captureRef_length r3 cap after h
    have h2 := skipWs_length l
    rw [hws] at h2
    simp only [List.length_cons] at h2
    omega
  · exact absurd h (by simp)

theorem matchAfterLit_length (l : List Char) (cap after : List Char)
    (h : matchAfterLit l = some (cap, after)) : after.length + 5 ≤ l.length := by
  unfold matchAfterLit at h
  split at h
  · rename_i r2 hws
    have h1 := matchAfterColon_length r2 cap after h
    have h2 := skipWs_length l
    rw [hws] at h2
    simp only [List.length_cons] at h2
    omega
  · exact absurd h (by simp)

theorem matchRefAt_length (l : List Char) (cap after : List Char)
    (h : matchRefAt l = some (cap, after)) : after.length < l.length := by
  unfold matchRefAt at h
  split at h
  · rename_i r1
    have h1 := matchAfterLit_length r1 cap after h
    simp only [List.length_cons]
    omega
  · exact absurd h (by simp)

theorem matchRefAt_mem_dollar (l : List Char) (p : List Char × List Char)
    (h : matchRefAt l = some p) : '$' ∈ l := by
  unfold matchRefAt at h
  split at h
  · simp
  · exact absurd h (by simp)

/-- The result of the rewrite scanner does not depend on the fuel, as long
as the fuel is at least the input length. -/
theorem srrAux_fuel_irrelevant (f : String → String) :
    ∀ n m l, List.length l ≤ n → List.length l ≤ m →
      srrAux f n l = srrAux f m l := by
  intro n
  induction n using Nat.strong_induction_on with
  | _ n ih =>
    intro m l hn hm
    cases l with
    | nil => cases n <;> cases m <;> rfl
    | cons c rest =>
      cases n with
      | zero => simp at hn
      | succ n2 =>
        cases m with
        | zero => simp at hm
        | succ m2 =>
          simp only [srrAux]
          cases hmat : matchRefAt (c :: rest) with
          | some p =>
            obtain ⟨cap, after⟩ := p
            dsimp only
            have hlen := matchRefAt_length _ _ _ hmat
            simp only [List.length_cons] at hlen hn hm
            rw [ih n2 (by omega) m2 after (by omega) (by omega)]
          | none =>
            dsimp only
            simp only [List.length_cons] at hn hm
            rw [ih n2 (by omega) m2 rest (by omega) (by omega)]

theorem srrAux_no_dollar (f : String → String) :
    ∀ n l, '$' ∉ l → srrAux f n l = l := by
  intro n
  induction n with
  | zero => intro l h; rfl
  | succ n ih =>
    intro l h
    cases l with
    | nil => rfl
    | cons c rest =>
      simp only [srrAux]
      cases hmat : matchRefAt (c :: rest) with
      | some p => exact absurd (matchRefAt_mem_dollar _ _ hmat) h
      | none =>
        rw [ih rest (fun hc => h (List.mem_cons_of_mem c hc))]

def wsOnlyB (w : List Char) : Bool := w.all isGoWs

def nameOkB (nm : List Char) : Bool := nm.all (fun c => c != '"' && c != '}')

/-- The exact character sequence of one match of `refRegex`:
`"$ref"` , whitespace, `:`, whitespace, `"{name}"`. -/
def refTextChars (w1 w2 nm : List Char) : List Char :=
  '"' :: '$' :: 'r' :: 'e' :: 'f' :: '"' ::
    (w1 ++ ':' :: (w2 ++ '"' :: '{' :: (nm ++ '}' :: '"' :: [])))

theorem skipWs_ws_front (w l : List Char) (h : wsOnlyB w = true) :
    skipWs (w ++ l) = skipWs l := by
  induction w with
  | nil => rfl
  | cons c w ih =>
    simp only [wsOnlyB, List.all_cons, Bool.and_eq_true] at h
    simp only [List.cons_append, skipWs, h.1, if_true]
    exact ih (by simp [wsOnlyB, h.2])

theorem skipWs_not_ws (c : Char) (l : List Char) (h : isGoWs c = false) :
    skipWs (c :: l) = c :: l := by
  simp [skipWs, h]

theorem captureRef_exact (nm : List Char) (rest : List Char)
    (h : nameOkB nm = true) :
    captureRef (nm ++ '}' :: '"' :: rest) = some (nm, rest) := by
  induction nm with
  | nil => simp [captureRef]
  | cons c nm ih =>
    simp only [nameOkB, List.all_cons, Bool.and_eq_true, bne_iff_ne, ne_eq] at h
    obtain ⟨⟨hc1, hc2⟩, hrest⟩ := h
    have ih2 : captureRef (nm ++ '}' :: '"' :: rest) = some (nm, rest) := by
      apply ih
      simp only [nameOkB]
      exact hrest
    cases nm with
    | nil =>
      simp only [List.nil_append] at ih2
      simp [captureRef, hc1, hc2, ih2]
    | cons e nm2 =>
      have he : ¬(e = '"') := by
        simp only [List.all_cons, Bool.and_eq_true, bne_iff_ne, ne_eq] at hrest
        exact hrest.1.1
      simp only [List.cons_append] at ih2 ⊢
      simp [captureRef, hc1, hc2, he, ih2]

theorem matchRefAt_canonical (w1 w2 nm rest : List Char)
    (hw1 : wsOnlyB w1 = true) (hw2 : wsOnlyB w2 = true) (hnm : nameOkB nm = true) :
    matchRefAt (refTextChars w1 w2 nm ++ rest) = some (nm, rest) := by
  have hys : ((w2 ++ '"' :: '{' :: (nm ++ '}' :: '"' :: [])) ++ rest)
      = w2 ++ ('"' :: '{' :: (nm ++ '}' :: '"' :: rest)) := by
    simp [List.append_assoc]
  have h1 : skipWs ((w1 ++ ':' :: (w2 ++ '"' :: '{' :: (nm ++ '}' :: '"' :: []))) ++ rest)
      = ':' :: (w2 ++ ('"' :: '{' :: (nm ++ '}' :: '"' :: rest))) := by
    rw [List.append_assoc, skipWs_ws_front w1 _ hw1, List.cons_append,
      skipWs_not_ws ':' _ (by decide), hys]
  have h2 : skipWs (w2 ++ ('"' :: '{' :: (nm ++ '}' :: '"' :: rest)))
      = '"' :: '{' :: (nm ++ '}' :: '"' :: rest) := by
    rw [skipWs_ws_front w2 _ hw2, skipWs_not_ws '"' _ (by decide)]
  simp only [refTextChars, List.cons_append, matchRefAt]
  unfold matchAfterLit
  rw [h1]
  show matchAfterColon (w2 ++ ('"' :: '{' :: (nm ++ '}' :: '"' :: rest))) = some (nm, rest)
  unfold matchAfterColon
  rw [h2]
  show captureRef (nm ++ '}' :: '"' :: rest) = some (nm, rest)
  exact captureRef_exact nm rest hnm

theorem srrAux_match_step (f : String → String) (c : Char) (l : List Char)
    (n : Nat) (cap after : List Char)
    (hm : matchRefAt (c :: l) = some (cap, after)) :
    srrAux f (n + 1) (c :: l) = refReplacementChars f cap ++ srrAux f n after := by
  simp only [srrAux, hm]

/-- C5 (counterexample): on the input `"$ref" : "{A}"` with the identity
replacement function, the claim predicts an output identical to the input
(the name `A` replaced by itself, every byte outside it — the whitespace
around the colon and the braces — unchanged), but `SchemaRefReplace`
produces the normalized text `"$ref":"A"`, dropping the whitespace and the
braces. -/
theorem schemaRefReplace_not_outside_identical :
    SchemaRefReplace "\"$ref\" : \"{A}\"" (fun r => r) = "\"$ref\":\"A\"" ∧
    SchemaRefReplace "\"$ref\" : \"{A}\"" (fun r => r) ≠ "\"$ref\" : \"{A}\"" := by
  constructor
  · decide
  · decide

/-- C5 (amended): `SchemaRefReplace` replaces each whole `refRegex` match —
`"$ref"`, any whitespace, `:`, any whitespace, `"{name}"` — by the
normalized text `"$ref":"f(name)"` (the whitespace around the colon and the
braces are consumed, not preserved), and continues scanning after the
match; input containing no `$` (in particular any segment outside every
match) is copied unchanged.  The function is pure and deterministic by
construction.  Stated here for any brace-free, quote-free name (possibly
empty) and any whitespace runs. -/
theorem schemaRefReplace_whole_match_normalized (f : String → String)
    (w1 w2 nm rest : List Char) (hw1 : wsOnlyB w1 = true)
    (hw2 : wsOnlyB w2 = true) (hnm : nameOkB nm = true) :
    SchemaRefReplace (String.mk (refTextChars w1 w2 nm ++ rest)) f =
      String.mk (refReplacementChars f nm ++ srrAux f rest.length rest) ∧
    (∀ s : String, '$' ∉ s.data → SchemaRefReplace s f = s) := by
  constructor
  · unfold SchemaRefReplace
    congr 1
    have hsh : refTextChars w1 w2 nm ++ rest =
        '"' :: (('$' :: 'r' :: 'e' :: 'f' :: '"' ::
          (w1 ++ ':' :: (w2 ++ '"' :: '{' :: (nm ++ '}' :: '"' :: [])))) ++ rest) := rfl
    have hm : matchRefAt ('"' :: (('$' :: 'r' :: 'e' :: 'f' :: '"' ::
        (w1 ++ ':' :: (w2 ++ '"' :: '{' :: (nm ++ '}' :: '"' :: [])))) ++ rest)) =
        some (nm, rest) := by
      rw [← hsh]
      exact matchRefAt_canonical w1 w2 nm rest hw1 hw2 hnm
    have hlen : ((String.mk (refTextChars w1 w2 nm ++ rest)).data).length =
        (('$' :: 'r' :: 'e' :: 'f' :: '"' ::
          (w1 ++ ':' :: (w2 ++ '"' :: '{' :: (nm ++ '}' :: '"' :: [])))) ++ rest).length + 1 := by
      show (refTextChars w1 w2 nm ++ rest).length = _
      rw [hsh]
      simp
    rw [show (String.mk (refTextChars w1 w2 nm ++ rest)).data =
        refTextChars w1 w2 nm ++ rest from rfl]
    rw [hlen, hsh, srrAux_match_step f _ _ _ nm rest hm]
    congr 1
    apply srrAux_fuel_irrelevant
    · simp
      omega
    · exact Nat.le_refl _
  · intro s h
    unfold SchemaRefReplace
    rw [srrAux_no_dollar f _ s.data h]

/-- Witness for C5: a concrete single-match input with a space before the
colon, rewritten with the identity function. -/
theorem schemaRefReplace_whole_match_normalized_witness :
    SchemaRefReplace (String.mk (refTextChars [' '] [] ['A'] ++ [])) (fun r => r) =
      String.mk (refReplacementChars (fun r => r) ['A'] ++
        srrAux (fun r => r) (List.length ([] : List Char)) []) :=
  (schemaRefReplace_whole_match_normalized (fun r => r) [' '] [] ['A'] []
    (by decide) (by decide) (by decide)).1

theorem jsize_pos (j : Json) : 1 ≤ jsize j := by
  cases j <;> simp [jsize]

/-! ## Claim C9: the Validate facade -/

/-- C9: for every compiled validator, `Validate` on a name absent from the
compiled map returns the unknown-schema error (and is total, hence never
crashes); on a present name it returns the stored compiled schema's engine
result for the instance unchanged. -/
theorem validate_unknown_or_delegate (v : ValidatorT) (eng : Engine)
    (name inst : String) :
    (lookupA v.schemas name = none →
      Validate v eng name inst = Except.error (VErr.unknownSchema name)) ∧
    (∀ cs, lookupA v.schemas name = some cs →
      Validate v eng name inst = Except.ok (eng.validate cs inst)) := by
  constructor
  · intro h
    unfold Validate
    rw [h]
  · intro cs h
    unfold Validate
    rw [h]

/-- Witness for C9 at a concrete validator and engine. -/
theorem validate_unknown_or_delegate_witness :
    Validate ⟨[]⟩
        ⟨fun _ _ => true, fun l b => some ⟨l, b⟩, fun _ _ => ⟨true, []⟩⟩ "B" "i"
      = Except.error (VErr.unknownSchema "B") :=
  (validate_unknown_or_delegate ⟨[]⟩
    ⟨fun _ _ => true, fun l b => some ⟨l, b⟩, fun _ _ => ⟨true, []⟩⟩ "B" "i").1 rfl

/-! ## Claim C4: re-registration of an existing name -/

/-- C4 (counterexample): in `validator.go`, `addSchema` performs no
name-collision check — re-registering the name `A` succeeds (returns no
error) instead of failing with a NameCollisionError. -/
theorem addSchema_no_collision_error_counterexample :
    (addStep 1 [("A", RegisteredSchema.mk "first" [])] (AddTask.schema "A" [])).2
      = none ∧
    (AddSchema [("A", RegisteredSchema.mk "first" [])] "A" (Json.obj [])).2
      = none := by
  constructor <;> simp [AddSchema, addStep, findField, jsize]

/-- C4 (amended): calling `AddSchema` with a name already present in the
registry does not fail in the current `validator.go` implementation: for a
well-formed body it succeeds and replaces the stored entry (last write
wins), so the first registration's body and reference set are lost.  Only
the older `builder.go` variant fails with the collision error
(`multiple definitions for schema with name: ...`) and preserves the first
registration. -/
theorem addSchema_present_name_overwrites (reg : Registry) (name : String)
    (fields : List (String × Json)) (fuel : Nat)
    (hpresent : containsKeyB reg name = true)
    (hnodefs : findField fields "definitions" = none) :
    addStep (fuel + 1) reg (AddTask.schema name fields)
        = (updAssoc reg name (mkRegistered fields), none) ∧
    lookupA (addStep (fuel + 1) reg (AddTask.schema name fields)).1 name
        = some (mkRegistered fields) ∧
    builderAddStep (fuel + 1) reg (AddTask.schema name fields)
        = (reg, some ("multiple definitions for schema with name: " ++ name)) := by
  have h1 : addStep (fuel + 1) reg (AddTask.schema name fields)
      = (updAssoc reg name (mkRegistered fields), none) := by
    simp [addStep, hnodefs]
  refine ⟨h1, ?_, ?_⟩
  · rw [h1]
    exact lookupA_updAssoc_self reg name (mkRegistered fields)
  · simp [builderAddStep, hnodefs, hpresent]

/-- Witness for C4 (amended) at a concrete registry. -/
theorem addSchema_present_name_overwrites_witness :
    addStep 1 [("A", RegisteredSchema.mk "first" [])] (AddTask.schema "A" [])
        = (updAssoc [("A", RegisteredSchema.mk "first" [])] "A" (mkRegistered []), none) ∧
    lookupA (addStep 1 [("A", RegisteredSchema.mk "first" [])] (AddTask.schema "A" [])).1 "A"
        = some (mkRegistered []) ∧
    builderAddStep 1 [("A", RegisteredSchema.mk "first" [])] (AddTask.schema "A" [])
        = ([("A", RegisteredSchema.mk "first" [])],
           some ("multiple definitions for schema with name: " ++ "A")) :=
  addSchema_present_name_overwrites [("A", RegisteredSchema.mk "first" [])] "A" [] 0
    (by decide) rfl

/-! ## Termination and invariants of the dependency-closure traversal -/

theorem lookupA_mem {α : Type} {l : List (String × α)} {k : String} {v : α}
    (h : lookupA l k = some v) : (k, v) ∈ l := by
  induction l with
  | nil => simp [lookupA] at h
  | cons p rest ih =>
    obtain ⟨k0, v0⟩ := p
    by_cases hk : k0 = k
    · subst hk
      simp only [lookupA, if_pos rfl] at h
      simp at h
      simp [h]
    · simp only [lookupA, if_neg hk] at h
      exact List.mem_cons_of_mem _ (ih h)

/-- Every required reference of any name is in the candidate set. -/
theorem refs_sub_candidates (reg : Registry) (n : String) :
    ∀ r ∈ (lookupSchemaD reg n).requiredReferences, r ∈ candidates reg := by
  intro r hr
  unfold lookupSchemaD at hr
  cases hl : lookupA reg n with
  | none =>
    rw [hl] at hr
    simp at hr
  | some s =>
    rw [hl] at hr
    simp at hr
    have hm := lookupA_mem hl
    unfold candidates
    apply List.mem_append_right
    exact List.mem_flatMap.mpr ⟨(n, s), hm, hr⟩

theorem filtered_map_sum_le (p : String → Bool) (f : String → Nat) :
    ∀ l : List String, ((l.filter p).map f).sum ≤ (l.map f).sum := by
  intro l
  induction l with
  | nil => simp
  | cons c rest ih =>
    by_cases h : p c
    · simp only [List.filter_cons, h, if_true, List.map_cons, List.sum_cons]
      omega
    · simp only [List.filter_cons]
      rw [if_neg (by simpa using h)]
      simp only [List.map_cons, List.sum_cons]
      omega

theorem filtered_map_sum_mono (p q : String → Bool) (f : String → Nat)
    (himp : ∀ c, q c = true → p c = true) :
    ∀ l : List String, ((l.filter q).map f).sum ≤ ((l.filter p).map f).sum := by
  intro l
  induction l with
  | nil => simp
  | cons c rest ih =>
    by_cases hq : q c
    · have hp := himp c hq
      simp only [List.filter_cons, hq, hp, if_true, List.map_cons, List.sum_cons]
      omega
    · simp only [List.filter_cons]
      rw [if_neg (by simpa using hq)]
      by_cases hp : p c
      · simp only [hp, if_true, List.map_cons, List.sum_cons]
        omega
      · rw [if_neg (by simpa using hp)]
        exact ih

theorem filtered_map_sum_insert (p q : String → Bool) (f : String → Nat)
    (r : String) (hq : q r = false)
    (himp : ∀ c, q c = true → (p c = true ∧ c ≠ r)) :
    ∀ l : List String, r ∈ l → p r = true →
      ((l.filter q).map f).sum + f r ≤ ((l.filter p).map f).sum := by
  intro l
  induction l with
  | nil => simp
  | cons c rest ih =>
    intro hmem hpr
    rcases List.mem_cons.mp hmem with hc | hc
    · subst hc
      simp only [List.filter_cons, hq, hpr, if_true]
      rw [if_neg (by simp)]
      simp only [List.map_cons, List.sum_cons]
      have := filtered_map_sum_mono p q f (fun c h => (himp c h).1) rest
      omega
    · by_cases hqc : q c
      · have hpc := (himp c hqc).1
        simp only [List.filter_cons, hqc, hpc, if_true, List.map_cons, List.sum_cons]
        have := ih hc hpr
        omega
      · simp only [List.filter_cons]
        rw [if_neg (by simpa using hqc)]
        by_cases hpc : p c
        · simp only [hpc, if_true, List.map_cons, List.sum_cons]
          have := ih hc hpr
          omega
        · rw [if_neg (by simpa using hpc)]
          exact ih hc hpr

/-- The total potential of the not-yet-visited candidates: an upper bound on
the remaining traversal depth. -/
def unvisitedPot (reg : Registry) (sa : List (String × Bool)) : Nat :=
  (((candidates reg).filter (fun c => !containsKeyB sa c)).map (potOf reg)).sum

theorem unvisitedPot_le_full (reg : Registry) (sa : List (String × Bool)) :
    unvisitedPot reg sa ≤ ((candidates reg).map (potOf reg)).sum :=
  filtered_map_sum_le _ _ _

theorem unvisitedPot_antitone (reg : Registry) (sa sa' : List (String × Bool))
    (hdom : ∀ k, containsKeyB sa k = true → containsKeyB sa' k = true) :
    unvisitedPot reg sa' ≤ unvisitedPot reg sa := by
  apply filtered_map_sum_mono
  intro c hc
  simp only [Bool.not_eq_true'] at hc ⊢
  cases h : containsKeyB sa c with
  | false => rfl
  | true => exact absurd (hdom c h) (by simp [hc])

theorem unvisitedPot_insert (reg : Registry) (sa : List (String × Bool))
    (r : String) (b : Bool) (hr : r ∈ candidates reg)
    (hnew : containsKeyB sa r = false) :
    unvisitedPot reg (updAssoc sa r b) + potOf reg r ≤ unvisitedPot reg sa := by
  apply filtered_map_sum_insert
  · simp [containsKeyB_updAssoc]
  · intro c hc
    simp only [Bool.not_eq_true', containsKeyB_updAssoc, Bool.or_eq_false_iff] at hc
    constructor
    · simp [hc.1]
    · intro hceq
      have := hc.2
      simp [hceq] at this
  · exact hr
  · simp [hnew]

theorem potOf_le_full (reg : Registry) (n : String) (hn : n ∈ candidates reg) :
    potOf reg n ≤ ((candidates reg).map (potOf reg)).sum := by
  have : potOf reg n ∈ (candidates reg).map (potOf reg) := List.mem_map_of_mem _ hn
  exact List.single_le_sum (by intro x hx; omega) _ this

/-- The keys of `schemasAdded` only grow during the traversal. -/
def DomMono (st st' : CompState) : Prop :=
  ∀ k, containsKeyB st.schemasAdded k = true → containsKeyB st'.schemasAdded k = true

/-- A name marked done stays done. -/
def TruePres (st st' : CompState) : Prop :=
  ∀ k, lookupA st.schemasAdded k = some true → lookupA st'.schemasAdded k = some true

/-- The loader invariant: every registered `(url, body)` pair is the
synthetic locator and rewritten body of a name that is marked done and
whose required references have all been visited; no name is registered
twice. -/
def LoaderInv (reg : Registry) (st : CompState) : Prop :=
  (∀ u b, (u, b) ∈ st.loader → ∃ n, u = refToFakeExternal n ∧
    lookupA st.schemasAdded n = some true ∧
    b = SchemaRefReplace (lookupSchemaD reg n).source refToFakeExternal ∧
    (∀ r ∈ (lookupSchemaD reg n).requiredReferences,
      containsKeyB st.schemasAdded r = true)) ∧
  (st.loader.map Prod.fst).Nodup

def taskCost (reg : Registry) : CompTask → Nat
  | CompTask.visit n => (lookupSchemaD reg n).requiredReferences.length + 3
  | CompTask.refs l => l.length + 1

def taskOKP (reg : Registry) : CompTask → Prop
  | CompTask.visit _ => True
  | CompTask.refs l => ∀ x ∈ l, x ∈ candidates reg

theorem refToFakeExternal_inj {a b : String}
    (h : refToFakeExternal a = refToFakeExternal b) : a = b := by
  unfold refToFakeExternal at h
  have h2 : ("file://--jsonschema--/" ++ a).data = ("file://--jsonschema--/" ++ b).data := by
    rw [h]
  have h3 : "file://--jsonschema--/".data ++ a.data =
      "file://--jsonschema--/".data ++ b.data := h2
  have h4 : a.data = b.data := by
    exact List.append_cancel_left h3
  cases a
  cases b
  exact congrArg String.mk (by simpa using h4)

theorem domMono_refl (st : CompState) : DomMono st st := fun _ h => h

theorem domMono_trans {a b c : CompState} (h1 : DomMono a b) (h2 : DomMono b c) :
    DomMono a c := fun k h => h2 k (h1 k h)

theorem truePres_refl (st : CompState) : TruePres st st := fun _ h => h

theorem truePres_trans {a b c : CompState} (h1 : TruePres a b) (h2 : TruePres b c) :
    TruePres a c := fun k h => h2 k (h1 k h)

theorem truePres_getAdded {a b : CompState} (h : TruePres a b) (n : String)
    (ha : getAdded a.schemasAdded n = true) : getAdded b.schemasAdded n = true := by
  unfold getAdded at ha ⊢
  cases hl : lookupA a.schemasAdded n with
  | none => rw [hl] at ha; simp at ha
  | some v =>
    rw [hl] at ha
    simp at ha
    subst ha
    rw [h n hl]
    rfl

/-- The combined invariant and fuel-sufficiency lemma for the dependency
closure traversal: with enough fuel the traversal never exhausts it, and on
success the visited-set only grows, done marks persist, the loader
invariant is preserved, every reference in a processed list ends up
visited, and the loader only grows at the end. -/
theorem compStep_main (reg : Registry) (eng : Engine) : ∀ (fuel : Nat)
    (st : CompState) (t : CompTask),
    (taskOKP reg t → unvisitedPot reg st.schemasAdded + taskCost reg t ≤ fuel →
      compStep reg eng fuel st t ≠ Except.error VErr.fuelOut) ∧
    (∀ st', compStep reg eng fuel st t = Except.ok st' →
      DomMono st st' ∧ TruePres st st' ∧ (LoaderInv reg st → LoaderInv reg st') ∧
      (∀ l, t = CompTask.refs l → ∀ x ∈ l, containsKeyB st'.schemasAdded x = true) ∧
      (∃ tail, st'.loader = st.loader ++ tail)) := by
  intro fuel
  induction fuel with
  | zero =>
    intro st t
    constructor
    · intro hok hfuel
      exfalso
      cases t <;> simp [taskCost] at hfuel
    · intro st' h
      simp [compStep] at h
  | succ fuel ih =>
    intro st t
    match t with
    | CompTask.visit name =>
      have hrefsOK : taskOKP reg
          (CompTask.refs (lookupSchemaD reg name).requiredReferences) := by
        intro x hx
        exact refs_sub_candidates reg name x hx
      constructor
      · intro _ hfuel
        simp only [taskCost] at hfuel
        have hfuel2 : unvisitedPot reg st.schemasAdded +
            taskCost reg (CompTask.refs (lookupSchemaD reg name).requiredReferences)
            ≤ fuel := by
          simp only [taskCost]
          omega
        have hinner := (ih st
          (CompTask.refs (lookupSchemaD reg name).requiredReferences)).1 hrefsOK hfuel2
        simp only [compStep]
        cases hres : compStep reg eng fuel st
            (CompTask.refs (lookupSchemaD reg name).requiredReferences) with
        | error e =>
          intro hcontra
          apply hinner
          rw [hres]
          simpa using hcontra
        | ok st1 =>
          by_cases hadd : getAdded st1.schemasAdded name
          · simp [hadd]
          · by_cases hoke : eng.addOk (refToFakeExternal name)
              (SchemaRefReplace (lookupSchemaD reg name).source refToFakeExternal)
            · simp [hadd, hoke]
            · simp [hadd, hoke]
      · intro st' h
        simp only [compStep] at h
        cases hres : compStep reg eng fuel st
            (CompTask.refs (lookupSchemaD reg name).requiredReferences) with
        | error e =>
          rw [hres] at h
          simp at h
        | ok st1 =>
          rw [hres] at h
          have hB := (ih st
            (CompTask.refs (lookupSchemaD reg name).requiredReferences)).2 st1 hres
          obtain ⟨hdom1, htrue1, hinv1, hrefs1, htail1⟩ := hB
          by_cases hadd : getAdded st1.schemasAdded name
          · simp only [hadd, if_true] at h
            have hst : st1 = st' := by simpa using h
            subst hst
            refine ⟨hdom1, htrue1, hinv1, ?_, htail1⟩
            intro l hl
            cases hl
          · simp only [hadd, Bool.false_eq_true, if_false] at h
            by_cases hoke : eng.addOk (refToFakeExternal name)
                (SchemaRefReplace (lookupSchemaD reg name).source refToFakeExternal)
            · simp only [hoke, if_true] at h
              have hst : st' = ⟨updAssoc st1.schemasAdded name true,
                  st1.loader ++ [(refToFakeExternal name,
                    SchemaRefReplace (lookupSchemaD reg name).source refToFakeExternal)]⟩ := by
                simpa using h.symm
              subst hst
              refine ⟨?_, ?_, ?_, ?_, ?_⟩
              · intro k hk
                simp only [containsKeyB_updAssoc]
                simp [hdom1 k hk]
              · intro k hk
                by_cases hkn : k = name
                · subst hkn
                  simp [lookupA_updAssoc_self]
                · rw [lookupA_updAssoc_ne _ _ _ _ hkn]
                  exact htrue1 k hk
              · intro hinv
                have hinvS1 := hinv1 hinv
                obtain ⟨hent, hnd⟩ := hinvS1
                constructor
                · intro u b hub
                  simp only [List.mem_append, List.mem_singleton] at hub
                  rcases hub with hold | hnew
                  · obtain ⟨n, hn1, hn2, hn3, hn4⟩ := hent u b hold
                    refine ⟨n, hn1, ?_, hn3, ?_⟩
                    · by_cases hkn : n = name
                      · subst hkn
                        simp [lookupA_updAssoc_self]
                      · rw [lookupA_updAssoc_ne _ _ _ _ hkn]
                        exact hn2
                    · intro r hr
                      simp only [containsKeyB_updAssoc]
                      simp [hn4 r hr]
                  · have hu : u = refToFakeExternal name := by
                      simpa using congrArg Prod.fst hnew
                    have hb : b = SchemaRefReplace (lookupSchemaD reg name).source
                        refToFakeExternal := by
                      simpa using congrArg Prod.snd hnew
                    refine ⟨name, hu, by simp [lookupA_updAssoc_self], hb, ?_⟩
                    intro r hr
                    simp only [containsKeyB_updAssoc]
                    have := hrefs1 (lookupSchemaD reg name).requiredReferences rfl r hr
                    simp [this]
                · simp only [List.map_append, List.map_cons, List.map_nil]
                  rw [List.nodup_append]
                  refine ⟨hnd, by simp, ?_⟩
                  intro u hu hu2
                  simp only [List.mem_singleton] at hu2
                  subst hu2
                  obtain ⟨p, hp, hpf⟩ := List.mem_map.mp hu
                  obtain ⟨n, hn1, hn2, _, _⟩ := hent p.1 p.2 (by simpa using hp)
                  rw [hpf] at hn1
                  have hnn : n = name := refToFakeExternal_inj hn1.symm
                  subst hnn
                  unfold getAdded at hadd
                  rw [hn2] at hadd
                  simp at hadd
              · intro l hl
                cases hl
              · obtain ⟨tail, htail⟩ := htail1
                exact ⟨tail ++ [(refToFakeExternal name,
                  SchemaRefReplace (lookupSchemaD reg name).source refToFakeExternal)],
                  by simp [htail]⟩
            · simp [hoke] at h
    | CompTask.refs [] =>
      constructor
      · intro _ _
        simp [compStep]
      · intro st' h
        simp only [compStep] at h
        have hst : st = st' := by simpa using h
        subst hst
        refine ⟨domMono_refl st, truePres_refl st, fun h => h, ?_, ⟨[], by simp⟩⟩
        intro l hl x hx
        cases hl
        cases hx
    | CompTask.refs (r :: rs) =>
      by_cases hcont : containsKeyB st.schemasAdded r
      · constructor
        · intro hok hfuel
          simp only [taskCost, List.length_cons] at hfuel
          have hok2 : taskOKP reg (CompTask.refs rs) := by
            intro x hx
            exact hok x (List.mem_cons_of_mem r hx)
          have hfuel2 : unvisitedPot reg st.schemasAdded +
              taskCost reg (CompTask.refs rs) ≤ fuel := by
            simp only [taskCost]
            omega
          have hinner := (ih st (CompTask.refs rs)).1 hok2 hfuel2
          simp only [compStep, hcont, if_true]
          exact hinner
        · intro st' h
          simp only [compStep, hcont, if_true] at h
          have hB := (ih st (CompTask.refs rs)).2 st' h
          obtain ⟨hdom1, htrue1, hinv1, hrefs1, htail1⟩ := hB
          refine ⟨hdom1, htrue1, hinv1, ?_, htail1⟩
          intro l hl x hx
          cases hl
          rcases List.mem_cons.mp hx with hxr | hxrs
          · subst hxr
            exact hdom1 x hcont
          · exact hrefs1 rs rfl x hxrs
      · have hst2dom : DomMono st ⟨updAssoc st.schemasAdded r false, st.loader⟩ := by
          intro k hk
          simp only [containsKeyB_updAssoc]
          simp [hk]
        have hst2true : TruePres st ⟨updAssoc st.schemasAdded r false, st.loader⟩ := by
          intro k hk
          by_cases hkr : k = r
          · subst hkr
            rw [lookupA_eq_none_of_not_containsKeyB (by simpa using hcont)] at hk
            cases hk
          · show lookupA (updAssoc st.schemasAdded r false) k = some true
            rw [lookupA_updAssoc_ne _ _ _ _ hkr]
            exact hk
        have hst2inv : LoaderInv reg st →
            LoaderInv reg ⟨updAssoc st.schemasAdded r false, st.loader⟩ := by
          intro hinv
          obtain ⟨hent, hnd⟩ := hinv
          constructor
          · intro u b hub
            obtain ⟨n, hn1, hn2, hn3, hn4⟩ := hent u b hub
            refine ⟨n, hn1, hst2true n hn2, hn3, ?_⟩
            intro x hx
            exact hst2dom x (hn4 x hx)
          · exact hnd
        constructor
        · intro hok hfuel
          simp only [taskCost, List.length_cons] at hfuel
          have hrc : r ∈ candidates reg := hok r (List.mem_cons_self r rs)
          have hpotdec := unvisitedPot_insert reg st.schemasAdded r false hrc
            (by simpa using hcont)
          simp only [compStep, hcont, Bool.false_eq_true, if_false]
          have hfuelv : unvisitedPot reg
              (updAssoc st.schemasAdded r false) + taskCost reg (CompTask.visit r)
              ≤ fuel := by
            simp only [taskCost]
            unfold potOf at hpotdec
            omega
          have hinnerA := (ih ⟨updAssoc st.schemasAdded r false, st.loader⟩
            (CompTask.visit r)).1 trivial hfuelv
          cases hres : compStep reg eng fuel
              ⟨updAssoc st.schemasAdded r false, st.loader⟩ (CompTask.visit r) with
          | error e =>
            intro hcontra
            apply hinnerA
            rw [hres]
            simpa using hcontra
          | ok st1 =>
            have hB := (ih ⟨updAssoc st.schemasAdded r false, st.loader⟩
              (CompTask.visit r)).2 st1 hres
            obtain ⟨hdom1, htrue1, hinv1, _, htail1⟩ := hB
            have hok2 : taskOKP reg (CompTask.refs rs) := by
              intro x hx
              exact hok x (List.mem_cons_of_mem r hx)
            have hpot1 : unvisitedPot reg st1.schemasAdded ≤
                unvisitedPot reg (updAssoc st.schemasAdded r false) :=
              unvisitedPot_antitone reg _ _ hdom1
            have hfuel2 : unvisitedPot reg st1.schemasAdded +
                taskCost reg (CompTask.refs rs) ≤ fuel := by
              simp only [taskCost]
              unfold potOf at hpotdec
              omega
            exact (ih st1 (CompTask.refs rs)).1 hok2 hfuel2
        · intro st' h
          simp only [compStep, hcont, Bool.false_eq_true, if_false] at h
          cases hres : compStep reg eng fuel
              ⟨updAssoc st.schemasAdded r false, st.loader⟩ (CompTask.visit r) with
          | error e =>
            rw [hres] at h
            simp at h
          | ok st1 =>
            rw [hres] at h
            have hB1 := (ih ⟨updAssoc st.schemasAdded r false, st.loader⟩
              (CompTask.visit r)).2 st1 hres
            obtain ⟨hdom1, htrue1, hinv1, _, htail1⟩ := hB1
            have hB2 := (ih st1 (CompTask.refs rs)).2 st' h
            obtain ⟨hdom2, htrue2, hinv2, hrefs2, htail2⟩ := hB2
            refine ⟨domMono_trans (domMono_trans hst2dom hdom1) hdom2,
              truePres_trans (truePres_trans hst2true htrue1) htrue2,
              fun hi => hinv2 (hinv1 (hst2inv hi)), ?_, ?_⟩
            · intro l hl x hx
              cases hl
              rcases List.mem_cons.mp hx with hxr | hxrs
              · subst hxr
                apply hdom2
                apply hdom1
                simp [containsKeyB_updAssoc]
              · exact hrefs2 rs rfl x hxrs
            · obtain ⟨t1, ht1⟩ := htail1
              obtain ⟨t2, ht2⟩ := htail2
              exact ⟨t1 ++ t2, by simp at ht1 ht2 ⊢; rw [ht2, ht1, List.append_assoc]⟩

/-- Any error produced by the traversal is a load failure (or the fuel
artifact, which `compStep_main` rules out for sufficient fuel). -/
theorem compStep_error_shape (reg : Registry) (eng : Engine) : ∀ (fuel : Nat)
    (st : CompState) (t : CompTask) (e : VErr),
    compStep reg eng fuel st t = Except.error e →
    (∃ n, e = VErr.loadFail n) ∨ e = VErr.fuelOut := by
  intro fuel
  induction fuel with
  | zero =>
    intro st t e h
    simp [compStep] at h
    exact Or.inr h.symm
  | succ fuel ih =>
    intro st t e h
    match t with
    | CompTask.visit name =>
      simp only [compStep] at h
      cases hres : compStep reg eng fuel st
          (CompTask.refs (lookupSchemaD reg name).requiredReferences) with
      | error e2 =>
        rw [hres] at h
        simp at h
        subst h
        exact ih st _ e2 hres
      | ok st1 =>
        rw [hres] at h
        by_cases hadd : getAdded st1.schemasAdded name
        · simp [hadd] at h
        · by_cases hoke : eng.addOk (refToFakeExternal name)
              (SchemaRefReplace (lookupSchemaD reg name).source refToFakeExternal)
          · simp [hadd, hoke] at h
          · simp only [hadd, Bool.false_eq_true, if_false, hoke] at h
            simp at h
            exact Or.inl ⟨name, h.symm⟩
    | CompTask.refs [] => simp [compStep] at h
    | CompTask.refs (r :: rs) =>
      by_cases hcont : containsKeyB st.schemasAdded r
      · simp only [compStep, hcont, if_true] at h
        exact ih st _ e h
      · simp only [compStep, hcont, Bool.false_eq_true, if_false] at h
        cases hres : compStep reg eng fuel
            ⟨updAssoc st.schemasAdded r false, st.loader⟩ (CompTask.visit r) with
        | error e2 =>
          rw [hres] at h
          simp at h
          subst h
          exact ih _ _ e2 hres
        | ok st1 =>
          rw [hres] at h
          exact ih st1 _ e h

/-- Invariants and fuel sufficiency for the per-target reference loop of
`Compile`. -/
theorem compileTarget_main (reg : Registry) (eng : Engine) : ∀ (ns : List String)
    (st : CompState),
    (∀ n ∈ ns, n ∈ candidates reg) →
    (compileTarget reg eng (compileFuel reg) st ns ≠ Except.error VErr.fuelOut) ∧
    (∀ st', compileTarget reg eng (compileFuel reg) st ns = Except.ok st' →
      DomMono st st' ∧ TruePres st st' ∧ (LoaderInv reg st → LoaderInv reg st') ∧
      (∃ tail, st'.loader = st.loader ++ tail)) := by
  intro ns
  induction ns with
  | nil =>
    intro st _
    constructor
    · simp [compileTarget]
    · intro st' h
      simp only [compileTarget] at h
      have hst : st = st' := by simpa using h
      subst hst
      exact ⟨domMono_refl st, truePres_refl st, fun h => h, ⟨[], by simp⟩⟩
  | cons n ns ih =>
    intro st hsub
    have hn : n ∈ candidates reg := hsub n (List.mem_cons_self n ns)
    have hfuel : unvisitedPot reg st.schemasAdded +
        taskCost reg (CompTask.visit n) ≤ compileFuel reg := by
      have h1 := unvisitedPot_le_full reg st.schemasAdded
      have h2 : 2 + (lookupSchemaD reg n).requiredReferences.length ≤
          ((candidates reg).map (potOf reg)).sum := by
        have h3 := potOf_le_full reg n hn
        simpa [potOf] using h3
      simp only [taskCost, compileFuel]
      omega
    have hA := (compStep_main reg eng (compileFuel reg) st (CompTask.visit n)).1
      trivial hfuel
    constructor
    · simp only [compileTarget]
      cases hres : compStep reg eng (compileFuel reg) st (CompTask.visit n) with
      | error e =>
        intro hcontra
        apply hA
        rw [hres]
        simpa using hcontra
      | ok st1 =>
        exact (ih st1 (fun x hx => hsub x (List.mem_cons_of_mem n hx))).1
    · intro st' h
      simp only [compileTarget] at h
      cases hres : compStep reg eng (compileFuel reg) st (CompTask.visit n) with
      | error e =>
        rw [hres] at h
        simp at h
      | ok st1 =>
        rw [hres] at h
        have hB1 := (compStep_main reg eng (compileFuel reg) st (CompTask.visit n)).2
          st1 hres
        obtain ⟨hdom1, htrue1, hinv1, _, htail1⟩ := hB1
        have hB2 := (ih st1 (fun x hx => hsub x (List.mem_cons_of_mem n hx))).2 st' h
        obtain ⟨hdom2, htrue2, hinv2, htail2⟩ := hB2
        refine ⟨domMono_trans hdom1 hdom2, truePres_trans htrue1 htrue2,
          fun hi => hinv2 (hinv1 hi), ?_⟩
        obtain ⟨t1, ht1⟩ := htail1
        obtain ⟨t2, ht2⟩ := htail2
        exact ⟨t1 ++ t2, by rw [ht2, ht1, List.append_assoc]⟩

theorem compileTarget_error_shape (reg : Registry) (eng : Engine)
    (fuel : Nat) : ∀ (ns : List String) (st : CompState) (e : VErr),
    compileTarget reg eng fuel st ns = Except.error e →
    (∃ n, e = VErr.loadFail n) ∨ e = VErr.fuelOut := by
  intro ns
  induction ns with
  | nil => intro st e h; simp [compileTarget] at h
  | cons n ns ih =>
    intro st e h
    simp only [compileTarget] at h
    cases hres : compStep reg eng fuel st (CompTask.visit n) with
    | error e2 =>
      rw [hres] at h
      simp at h
      subst h
      exact compStep_error_shape reg eng fuel st _ e2 hres
    | ok st1 =>
      rw [hres] at h
      exact ih st1 e h

/-- The reference graph of the registry is closed: every recorded required
reference names a registered schema. -/
def closedB (reg : Registry) : Bool :=
  reg.all (fun p => p.2.requiredReferences.all (fun r => containsKeyB reg r))

/-! ## Claim C1: cycle-safe, at-most-once dependency-closure registration -/

/-- C1: for a registry whose reference graph is closed, the per-target
dependency-closure registration performed by `Compile` (the
`addSchemasCompile` recursion, here `compileTarget`/`compStep` with the
fuel bound `compileFuel` that `Compile` uses) terminates even on cyclic
graphs — the fuel artifact is never exhausted — and on success each
dependency is registered into the loader at most once (the loader names
are duplicate-free), and a registered dependency's own required references
have all been processed (entered into `schemasAdded`) by the time it is
registered, hence certainly in the final state. -/
theorem compile_closure_cycle_safe (reg : Registry) (eng : Engine)
    (name : String) (s : RegisteredSchema)
    (hclosed : closedB reg = true)
    (htarget : lookupA reg name = some s) :
    compileTarget reg eng (compileFuel reg) ⟨[(name, false)], []⟩
        s.requiredReferences ≠ Except.error VErr.fuelOut ∧
    (∀ st', compileTarget reg eng (compileFuel reg) ⟨[(name, false)], []⟩
        s.requiredReferences = Except.ok st' →
      (st'.loader.map Prod.fst).Nodup ∧
      (∀ u b, (u, b) ∈ st'.loader → ∃ n, u = refToFakeExternal n ∧
        b = SchemaRefReplace (lookupSchemaD reg n).source refToFakeExternal ∧
        (∀ r ∈ (lookupSchemaD reg n).requiredReferences,
          containsKeyB st'.schemasAdded r = true))) := by
  have hsub : ∀ n ∈ s.requiredReferences, n ∈ candidates reg := by
    intro n hn
    have : (lookupSchemaD reg name).requiredReferences = s.requiredReferences := by
      unfold lookupSchemaD
      rw [htarget]
      rfl
    apply refs_sub_candidates reg name
    rw [this]
    exact hn
  have hmain := compileTarget_main reg eng s.requiredReferences
    ⟨[(name, false)], []⟩ hsub
  refine ⟨hmain.1, ?_⟩
  intro st' h
  have hB := hmain.2 st' h
  obtain ⟨_, _, hinv, _⟩ := hB
  have hinv0 : LoaderInv reg ⟨[(name, false)], []⟩ := by
    constructor
    · intro u b hub
      cases hub
    · simp
  obtain ⟨hent, hnd⟩ := hinv hinv0
  refine ⟨hnd, ?_⟩
  intro u b hub
  obtain ⟨n, h1, _, h3, h4⟩ := hent u b hub
  exact ⟨n, h1, h3, h4⟩

/-- Witness for C1: a closed, cyclic registry (`A` references itself and
`B`; `B` references `A`) with a permissive engine. -/
theorem compile_closure_cycle_safe_witness :
    compileTarget [("A", RegisteredSchema.mk "sA" ["A", "B"]),
        ("B", RegisteredSchema.mk "sB" ["A"])]
        ⟨fun _ _ => true, fun l b => some ⟨l, b⟩, fun _ _ => ⟨true, []⟩⟩
        (compileFuel [("A", RegisteredSchema.mk "sA" ["A", "B"]),
          ("B", RegisteredSchema.mk "sB" ["A"])])
        ⟨[("A", false)], []⟩ ["A", "B"] ≠ Except.error VErr.fuelOut :=
  (compile_closure_cycle_safe
    [("A", RegisteredSchema.mk "sA" ["A", "B"]), ("B", RegisteredSchema.mk "sB" ["A"])]
    ⟨fun _ _ => true, fun l b => some ⟨l, b⟩, fun _ _ => ⟨true, []⟩⟩
    "A" (RegisteredSchema.mk "sA" ["A", "B"]) (by decide) (by decide)).1

/-! ## Lemmas about the missing-reference collection -/

theorem mem_insertIfAbsent_iff (l : List String) (x y : String) :
    y ∈ insertIfAbsent l x ↔ y ∈ l ∨ y = x := by
  unfold insertIfAbsent
  by_cases h : x ∈ l
  · simp only [h, if_true]
    constructor
    · exact Or.inl
    · intro hy
      rcases hy with hy | hy
      · exact hy
      · subst hy; exact h
  · simp [h]

theorem containsKeyB_of_mem {α : Type} {l : List (String × α)} {k : String}
    {v : α} (h : (k, v) ∈ l) : containsKeyB l k = true := by
  unfold containsKeyB
  rw [List.any_eq_true]
  exact ⟨(k, v), h, by simp⟩

theorem missingAdd_mono (reg : Registry) (name : String) :
    ∀ (rs : List String) (acc : List String) (x : String),
      x ∈ acc → x ∈ missingAdd reg name rs acc := by
  intro rs
  induction rs with
  | nil => intro acc x hx; exact hx
  | cons r rs ih =>
    intro acc x hx
    simp only [missingAdd]
    apply ih
    by_cases h : containsKeyB reg r
    · simpa [h] using hx
    · simp only [h, Bool.false_eq_true, if_false]
      exact (mem_insertIfAbsent_iff _ _ _).mpr (Or.inl hx)

theorem missingAdd_complete (reg : Registry) (name : String) :
    ∀ (rs : List String) (acc : List String) (r : String),
      r ∈ rs → containsKeyB reg r = false →
      (r ++ "(" ++ name ++ ")") ∈ missingAdd reg name rs acc := by
  intro rs
  induction rs with
  | nil => intro acc r hr; cases hr
  | cons r0 rs ih =>
    intro acc r hr hmiss
    rcases List.mem_cons.mp hr with hr0 | hrs
    · subst hr0
      simp only [missingAdd, hmiss, Bool.false_eq_true, if_false]
      apply missingAdd_mono
      exact (mem_insertIfAbsent_iff _ _ _).mpr (Or.inr rfl)
    · simp only [missingAdd]
      exact ih _ r hrs hmiss

theorem missingAdd_sound (reg : Registry) (name : String) :
    ∀ (rs : List String) (acc : List String) (x : String),
      x ∈ missingAdd reg name rs acc →
      x ∈ acc ∨ ∃ r ∈ rs, containsKeyB reg r = false ∧
        x = r ++ "(" ++ name ++ ")" := by
  intro rs
  induction rs with
  | nil => intro acc x hx; exact Or.inl hx
  | cons r0 rs ih =>
    intro acc x hx
    simp only [missingAdd] at hx
    by_cases h : containsKeyB reg r0
    · rw [if_pos h] at hx
      rcases ih _ x hx with hacc | ⟨r, hr1, hr2, hr3⟩
      · exact Or.inl hacc
      · exact Or.inr ⟨r, List.mem_cons_of_mem r0 hr1, hr2, hr3⟩
    · rw [if_neg h] at hx
      rcases ih _ x hx with hacc | ⟨r, hr1, hr2, hr3⟩
      · rcases (mem_insertIfAbsent_iff _ _ _).mp hacc with h2 | h2
        · exact Or.inl h2
        · exact Or.inr ⟨r0, List.mem_cons_self r0 rs,
            by simpa using h, h2⟩
      · exact Or.inr ⟨r, List.mem_cons_of_mem r0 hr1, hr2, hr3⟩

theorem missingAll_mono (reg : Registry) :
    ∀ (es : List (String × RegisteredSchema)) (acc : List String) (x : String),
      x ∈ acc → x ∈ missingAll reg es acc := by
  intro es
  induction es with
  | nil => intro acc x hx; exact hx
  | cons p rest ih =>
    obtain ⟨n0, s0⟩ := p
    intro acc x hx
    simp only [missingAll]
    exact ih _ x (missingAdd_mono reg n0 _ acc x hx)

theorem missingAll_complete (reg : Registry) :
    ∀ (es : List (String × RegisteredSchema)) (acc : List String)
      (name : String) (s : RegisteredSchema) (r : String),
      (name, s) ∈ es → r ∈ s.requiredReferences → containsKeyB reg r = false →
      (r ++ "(" ++ name ++ ")") ∈ missingAll reg es acc := by
  intro es
  induction es with
  | nil => intro acc name s r h; cases h
  | cons p rest ih =>
    obtain ⟨n0, s0⟩ := p
    intro acc name s r hmem hr hmiss
    rcases List.mem_cons.mp hmem with hm | hm
    · have hn : n0 = name ∧ s0 = s := by
        constructor <;> [exact (congrArg Prod.fst hm).symm; exact (congrArg Prod.snd hm).symm]
      obtain ⟨hn1, hn2⟩ := hn
      subst hn1
      subst hn2
      simp only [missingAll]
      apply missingAll_mono
      exact missingAdd_complete reg n0 _ acc r hr hmiss
    · simp only [missingAll]
      exact ih _ name s r hm hr hmiss

theorem missingAll_sound (reg : Registry) :
    ∀ (es : List (String × RegisteredSchema)) (acc : List String) (x : String),
      x ∈ missingAll reg es acc →
      x ∈ acc ∨ ∃ name s r, (name, s) ∈ es ∧ r ∈ s.requiredReferences ∧
        containsKeyB reg r = false ∧ x = r ++ "(" ++ name ++ ")" := by
  intro es
  induction es with
  | nil => intro acc x hx; exact Or.inl hx
  | cons p rest ih =>
    obtain ⟨n0, s0⟩ := p
    intro acc x hx
    simp only [missingAll] at hx
    rcases ih _ x hx with hacc | ⟨name, s, r, h1, h2, h3, h4⟩
    · rcases missingAdd_sound reg n0 _ acc x hacc with h | ⟨r, hr1, hr2, hr3⟩
      · exact Or.inl h
      · exact Or.inr ⟨n0, s0, r, List.mem_cons_self _ _, hr1, hr2, hr3⟩
    · exact Or.inr ⟨name, s, r, List.mem_cons_of_mem _ h1, h2, h3, h4⟩

/-! ## Lemmas about the per-target compilation loop -/

theorem compileLoop_error_shape (reg : Registry) (eng : Engine) :
    ∀ (es : List (String × RegisteredSchema)) (acc : List (String × CompiledSchema))
      (e : VErr), (∀ p ∈ es, p ∈ reg) →
      compileLoop reg eng es acc = Except.error e →
      (∃ n, e = VErr.loadFail n) ∨ e = VErr.fuelOut ∨
      (∃ n, containsKeyB reg n = true ∧ e = VErr.compileFail n) := by
  intro es
  induction es with
  | nil => intro acc e _ h; simp [compileLoop] at h
  | cons p rest ih =>
    obtain ⟨name, s⟩ := p
    intro acc e hsub h
    simp only [compileLoop] at h
    cases hres : compileTarget reg eng (compileFuel reg) ⟨[(name, false)], []⟩
        s.requiredReferences with
    | error e2 =>
      rw [hres] at h
      simp at h
      subst h
      rcases compileTarget_error_shape reg eng _ _ _ e2 hres with h1 | h1
      · exact Or.inl h1
      · exact Or.inr (Or.inl h1)
    | ok st =>
      rw [hres] at h
      dsimp only at h
      cases hcs : eng.compileSchema st.loader
          (SchemaRefReplace s.source refToFakeExternal) with
      | none =>
        rw [hcs] at h
        simp at h
        refine Or.inr (Or.inr ⟨name, ?_, h.symm⟩)
        exact containsKeyB_of_mem (hsub (name, s) (List.mem_cons_self _ _))
      | some cs =>
        rw [hcs] at h
        exact ih _ e (fun q hq => hsub q (List.mem_cons_of_mem _ hq)) h

theorem compileLoop_no_fuelOut (reg : Registry) (eng : Engine) :
    ∀ (es : List (String × RegisteredSchema)) (acc : List (String × CompiledSchema)),
      (∀ p ∈ es, p ∈ reg) →
      compileLoop reg eng es acc ≠ Except.error VErr.fuelOut := by
  intro es
  induction es with
  | nil => intro acc _; simp [compileLoop]
  | cons p rest ih =>
    obtain ⟨name, s⟩ := p
    intro acc hsub
    simp only [compileLoop]
    have hsubrefs : ∀ n ∈ s.requiredReferences, n ∈ candidates reg := by
      intro n hn
      unfold candidates
      apply List.mem_append_right
      exact List.mem_flatMap.mpr ⟨(name, s), hsub _ (List.mem_cons_self _ _), hn⟩
    have hA := (compileTarget_main reg eng s.requiredReferences
      ⟨[(name, false)], []⟩ hsubrefs).1
    cases hres : compileTarget reg eng (compileFuel reg) ⟨[(name, false)], []⟩
        s.requiredReferences with
    | error e2 =>
      intro hcontra
      simp at hcontra
      apply hA
      rw [hres, hcontra]
    | ok st =>
      dsimp only
      cases hcs : eng.compileSchema st.loader
          (SchemaRefReplace s.source refToFakeExternal) with
      | none => simp
      | some cs =>
        show compileLoop reg eng rest (updAssoc acc name cs) ≠
          Except.error VErr.fuelOut
        exact ih _ (fun q hq => hsub q (List.mem_cons_of_mem _ hq))

theorem exists_mem_of_containsKeyB {α : Type} {l : List (String × α)}
    {k : String} (h : containsKeyB l k = true) : ∃ v, (k, v) ∈ l := by
  have h2 := lookupA_isSome_iff_containsKeyB l k
  rw [h] at h2
  cases hl : lookupA l k with
  | none => rw [hl] at h2; simp at h2
  | some v => exact ⟨v, lookupA_mem hl⟩

theorem compileLoop_ok_names (reg : Registry) (eng : Engine) :
    ∀ (es : List (String × RegisteredSchema)) (acc : List (String × CompiledSchema))
      (v : ValidatorT), compileLoop reg eng es acc = Except.ok v →
      ∀ n, containsKeyB v.schemas n = true ↔
        (containsKeyB acc n = true ∨ containsKeyB es n = true) := by
  intro es
  induction es with
  | nil =>
    intro acc v h n
    simp only [compileLoop] at h
    have hv : ValidatorT.mk acc = v := by simpa using h
    subst hv
    simp [containsKeyB]
  | cons p rest ih =>
    obtain ⟨name, s⟩ := p
    intro acc v h n
    simp only [compileLoop] at h
    cases hres : compileTarget reg eng (compileFuel reg) ⟨[(name, false)], []⟩
        s.requiredReferences with
    | error e2 => rw [hres] at h; simp at h
    | ok st =>
      rw [hres] at h
      dsimp only at h
      cases hcs : eng.compileSchema st.loader
          (SchemaRefReplace s.source refToFakeExternal) with
      | none => rw [hcs] at h; simp at h
      | some cs =>
        rw [hcs] at h
        have hih := ih _ v h n
        rw [hih]
        simp only [containsKeyB_updAssoc]
        constructor
        · intro hcase
          rcases hcase with hcase | hcase
          · rcases (Bool.or_eq_true _ _).mp hcase with h2 | h2
            · exact Or.inl h2
            · refine Or.inr ?_
              simp only [containsKeyB, List.any_cons]
              simp at h2
              simp [h2]
          · refine Or.inr ?_
            show (decide (name = n) || containsKeyB rest n) = true
            rw [hcase]
            simp
        · intro hcase
          rcases hcase with hcase | hcase
          · exact Or.inl (by simp [hcase])
          · simp only [containsKeyB, List.any_cons] at hcase
            rcases (Bool.or_eq_true _ _).mp hcase with h2 | h2
            · simp at h2
              exact Or.inl (by simp [h2])
            · exact Or.inr h2

/-! ## Claim C2: the missing-reference check -/

/-- C2: `Compile` fails with the missing-references error exactly when some
registered schema records a required reference whose name is not
registered, and the reported list enumerates every
`missingName(fromSchemaName)` violation over the whole registry, not just
the first. -/
theorem compile_missing_references (reg : Registry) (eng : Engine) :
    ((∃ name s r, (name, s) ∈ reg ∧ r ∈ s.requiredReferences ∧
        containsKeyB reg r = false) ↔
      (Compile reg eng).1 = Except.error (VErr.missingRefs (missingList reg))) ∧
    (∀ name s r, (name, s) ∈ reg → r ∈ s.requiredReferences →
      containsKeyB reg r = false →
      (r ++ "(" ++ name ++ ")") ∈ missingList reg) := by
  constructor
  · constructor
    · intro ⟨name, s, r, h1, h2, h3⟩
      have hvio : (r ++ "(" ++ name ++ ")") ∈ missingList reg :=
        missingAll_complete reg reg [] name s r h1 h2 h3
      cases hml : missingList reg with
      | nil => rw [hml] at hvio; cases hvio
      | cons x xs =>
        unfold Compile
        rw [hml]
    · intro h
      cases hml : missingList reg with
      | cons x xs =>
        have hx : x ∈ missingList reg := by rw [hml]; exact List.mem_cons_self _ _
        rcases missingAll_sound reg reg [] x hx with h2 | ⟨name, s, r, h1, h2, h3, _⟩
        · cases h2
        · exact ⟨name, s, r, h1, h2, h3⟩
      | nil =>
        exfalso
        unfold Compile at h
        rw [hml] at h
        simp only at h
        rcases compileLoop_error_shape reg eng reg [] _ (fun p hp => hp) h with
          ⟨n, hn⟩ | hn | ⟨n, _, hn⟩
        · simp at hn
        · simp at hn
        · simp at hn
  · intro name s r h1 h2 h3
    exact missingAll_complete reg reg [] name s r h1 h2 h3

/-- Witness for C2: a registry where `A` requires the unregistered `B`. -/
theorem compile_missing_references_witness :
    ("B" ++ "(" ++ "A" ++ ")") ∈
      missingList [("A", RegisteredSchema.mk "sA" ["B"])] :=
  (compile_missing_references [("A", RegisteredSchema.mk "sA" ["B"])]
      ⟨fun _ _ => true, fun l b => some ⟨l, b⟩, fun _ _ => ⟨true, []⟩⟩).2
    "A" (RegisteredSchema.mk "sA" ["B"]) "B" (by decide) (by decide) (by decide)

/-! ## Claim C7: Compile is all-or-nothing -/

/-- C7: `Compile` never mutates the registry (the returned registry state is
exactly the input), on failure it returns an error and no validator — and
the error is the missing-references error, a load failure naming the
schema the external engine rejected while loading, or a compilation
failure naming a registered schema — and on success the compiled map
covers exactly the registered names, never a strict part of them. -/
theorem compile_all_or_nothing (reg : Registry) (eng : Engine) :
    (Compile reg eng).2 = reg ∧
    (∀ e, (Compile reg eng).1 = Except.error e →
      (∃ l, e = VErr.missingRefs l) ∨ (∃ n, e = VErr.loadFail n) ∨
      (∃ n, containsKeyB reg n = true ∧ e = VErr.compileFail n)) ∧
    (∀ v, (Compile reg eng).1 = Except.ok v →
      ∀ n, containsKeyB v.schemas n = containsKeyB reg n) := by
  refine ⟨?_, ?_, ?_⟩
  · unfold Compile
    cases missingList reg <;> rfl
  · intro e h
    unfold Compile at h
    cases hml : missingList reg with
    | nil =>
      rw [hml] at h
      simp only at h
      rcases compileLoop_error_shape reg eng reg [] e (fun p hp => hp) h with
        h1 | h1 | h1
      · exact Or.inr (Or.inl h1)
      · exfalso
        subst h1
        exact compileLoop_no_fuelOut reg eng reg [] (fun p hp => hp) h
      · exact Or.inr (Or.inr h1)
    | cons x xs =>
      rw [hml] at h
      simp only at h
      have he : VErr.missingRefs (x :: xs) = e := by
        simpa using h
      exact Or.inl ⟨x :: xs, he.symm⟩
  · intro v h n
    unfold Compile at h
    cases hml : missingList reg with
    | nil =>
      rw [hml] at h
      simp only at h
      have hih := compileLoop_ok_names reg eng reg [] v h n
      cases hcv : containsKeyB v.schemas n with
      | true =>
        rcases hih.mp hcv with h2 | h2
        · simp [containsKeyB] at h2
        · exact h2.symm
      | false =>
        cases hcr : containsKeyB reg n with
        | true =>
          exfalso
          have := hih.mpr (Or.inr hcr)
          rw [hcv] at this
          cases this
        | false => rfl
    | cons x xs =>
      rw [hml] at h
      simp at h

/-- Witness for C7: a concrete registry with an engine that rejects every
compilation; the registry is returned unchanged and the error names the
offending schema. -/
theorem compile_all_or_nothing_witness :
    (Compile [("A", RegisteredSchema.mk "sA" [])]
        ⟨fun _ _ => true, fun _ _ => none, fun _ _ => ⟨true, []⟩⟩).2
      = [("A", RegisteredSchema.mk "sA" [])] :=
  (compile_all_or_nothing [("A", RegisteredSchema.mk "sA" [])]
    ⟨fun _ _ => true, fun _ _ => none, fun _ _ => ⟨true, []⟩⟩).1

/-! ## Claim C10: AddSchema is not atomic on nested definition failures -/

/-- C10: for the input `{"definitions": {"A": {}, "B": 5}}` added under
name `P`, `addSchema` registers the object-valued definition `A` (as `PA`)
before reaching the non-object definition `B`, then fails — the error is
returned while `PA` remains in the registry.  A top-level non-object
input, in contrast, fails in `AddSchema` before `addSchema` runs and
leaves the registry entirely unchanged. -/
theorem addSchema_not_atomic_on_nested_failure :
    (addStep 3 [] (AddTask.schema "P"
        [("definitions", Json.obj [("A", Json.obj []), ("B", Json.num 5)])])).2
      = some (defNotObjMsg "B" ("P" ++ "B")) ∧
    lookupA (addStep 3 [] (AddTask.schema "P"
        [("definitions", Json.obj [("A", Json.obj []), ("B", Json.num 5)])])).1 "PA"
      = some (mkRegistered []) ∧
    (∀ (reg : Registry) (name s : String),
      AddSchema reg name (Json.str s) = (reg, some parseErrMsg)) := by
  refine ⟨?_, ?_, ?_⟩
  · simp [addStep, findField, updAssoc, lookupA]
  · simp [addStep, findField, updAssoc, lookupA]
  · intro reg name s
    rfl

/-! ## Claim C6: AddDir and `filepath.Walk`

`AddDir` (`validator.go` lines 59-72, `builder.go` lines 54-66) walks the
directory with `filepath.Walk`, which visits the root and then every
entry of every subdirectory recursively, in lexical order.  File contents
are modelled at the `Json` level, matching the `AddSchema` embedding. -/

inductive FsNode where
  | file (name : String) (contents : Json)
  | dir (name : String) (entries : List FsNode)

def nodeName : FsNode → String
  | FsNode.file n _ => n
  | FsNode.dir n _ => n

def insNode (x : FsNode) : List FsNode → List FsNode
  | [] => [x]
  | y :: rest =>
    if nodeName x ≤ nodeName y then x :: y :: rest else y :: insNode x rest

/-- Directory entries are read in lexical order. -/
def sortNodes (l : List FsNode) : List FsNode := l.foldr insNode []

theorem mem_insNode {a x : FsNode} : ∀ {l : List FsNode},
    a ∈ insNode x l → a = x ∨ a ∈ l := by
  intro l
  induction l with
  | nil => intro h; simpa [insNode] using h
  | cons y rest ih =>
    intro h
    simp only [insNode] at h
    by_cases hle : nodeName x ≤ nodeName y
    · rw [if_pos hle] at h
      rcases List.mem_cons.mp h with h1 | h1
      · exact Or.inl h1
      · exact Or.inr h1
    · rw [if_neg hle] at h
      rcases List.mem_cons.mp h with h1 | h1
      · exact Or.inr (by simp [h1])
      · rcases ih h1 with h2 | h2
        · exact Or.inl h2
        · exact Or.inr (List.mem_cons_of_mem _ h2)

theorem mem_sortNodes {a : FsNode} : ∀ {l : List FsNode},
    a ∈ sortNodes l → a ∈ l := by
  intro l
  induction l with
  | nil => intro h; simpa [sortNodes] using h
  | cons x rest ih =>
    intro h
    have h2 : a ∈ insNode x (sortNodes rest) := h
    rcases mem_insNode h2 with h3 | h3
    · simp [h3]
    · exact List.mem_cons_of_mem _ (ih h3)

/-- One visited node of `filepath.Walk`: its path, its base name, and its
contents (`none` for a directory). -/
structure WalkEntry where
  path : String
  name : String
  contents : Option Json

/-- The visit list of `filepath.Walk` below the root: each node is visited
before its children, children in lexical order. -/
def walkList (parent : String) : FsNode → List WalkEntry
  | FsNode.file name c => [⟨parent ++ "/" ++ name, name, some c⟩]
  | FsNode.dir name entries =>
    ⟨parent ++ "/" ++ name, name, none⟩ ::
      (sortNodes entries).attach.flatMap
        (fun p => walkList (parent ++ "/" ++ name) p.1)
decreasing_by
  have h1 := List.sizeOf_lt_of_mem (mem_sortNodes p.2)
  simp only [FsNode.dir.sizeOf_spec]
  omega

/-- `filepath.Walk(dirPath, fn)` visits the root under the path given as
argument, then its children. -/
def walkRoot (dirPath : String) : FsNode → List WalkEntry
  | FsNode.file name c => [⟨dirPath, name, some c⟩]
  | FsNode.dir name entries =>
    ⟨dirPath, name, none⟩ ::
      (sortNodes entries).flatMap (walkList dirPath)

/-- `strings.HasSuffix(name, ".json")` / `filepath.Ext(path) == ".json"`. -/
def hasJsonSuffix (nm : String) : Bool :=
  ".json".data.isSuffixOf nm.data

/-- `name[:len(name)-5]`: strip the `.json` extension. -/
def dropJsonExt (nm : String) : String :=
  String.mk (nm.data.take (nm.data.length - 5))

/-- Embedding of `(*builder).AddFile` (`validator.go` lines 77-89) applied
to a visited node: check the `.json` extension, read the contents (reading
a directory fails), and add the schema under `prefix + base name without
extension`, wrapping any error with the file path. -/
def AddFile (reg : Registry) (pfx : String) (e : WalkEntry) :
    Registry × Option String :=
  if ¬ (hasJsonSuffix e.name) then
    (reg, some "failed to add file as schema - file must have a .json ext")
  else
    match e.contents with
    | none => (reg, some ("failed to read file: " ++ e.path))
    | some j =>
      match AddSchema reg (pfx ++ dropJsonExt e.name) j with
      | (r, some err) =>
        (r, some ("failed to add schema from file: " ++ e.path ++ ": " ++ err))
      | (r, none) => (r, none)

/-- The walk function of `AddDir` (`validator.go` lines 60-67): for every
visited node whose name ends in `.json`, call
`AddFile(prefix + rootTypeName, path)`; an error aborts the walk. -/
def addDirFold (pfx : String) : Registry → List WalkEntry →
    Registry × Option String
  | reg, [] => (reg, none)
  | reg, e :: rest =>
    if hasJsonSuffix e.name then
      match AddFile reg (pfx ++ dropJsonExt e.name) e with
      | (r, some err) => (r, some err)
      | (r, none) => addDirFold pfx r rest
    else addDirFold pfx reg rest

/-- Embedding of `(*builder).AddDir` (`validator.go` lines 59-72). -/
def AddDir (reg : Registry) (pfx dirPath : String) (root : FsNode) :
    Registry × Option String :=
  match addDirFold pfx reg (walkRoot dirPath root) with
  | (r, some err) =>
    (r, some ("failed during directory walk of " ++ dirPath ++ ": " ++ err))
  | (r, none) => (r, none)

/-- C6 (code bug): `AddDir` on a directory `top` whose only `.json` file
lives in the subdirectory `top/sub` succeeds and registers a schema from
that file — `filepath.Walk` recurses into subdirectories, although the doc
comment on `AddDir` says "(non-recursive)" and the spec says files in
subdirectories are never added.  (The registered name is `AA` rather than
`A`: `AddDir` passes `prefix+rootTypeName` to `AddFile`, which appends the
base name again.) -/
theorem addDir_registers_subdirectory_file :
    (AddDir [] "" "top" (FsNode.dir "top" [FsNode.dir "sub"
        [FsNode.file "A.json" (Json.obj [])]])).2 = none ∧
    containsKeyB (AddDir [] "" "top" (FsNode.dir "top" [FsNode.dir "sub"
        [FsNode.file "A.json" (Json.obj [])]])).1 "AA" = true := by
  have hAS : ∀ (reg : Registry) (name : String),
      AddSchema reg name (Json.obj []) = (updAssoc reg name (mkRegistered []), none) := by
    intro reg name
    simp [AddSchema, jsize, addStep, findField]
  have h1 : hasJsonSuffix "top" = false := by decide
  have h2 : hasJsonSuffix "sub" = false := by decide
  have h3 : hasJsonSuffix "A.json" = true := by decide
  have hdrop : dropJsonExt "A.json" = "A" := by decide
  have hAA : ("A" : String) ++ "A" = "AA" := by decide
  constructor <;>
    simp [AddDir, walkRoot, walkList, sortNodes, insNode, addDirFold,
      h1, h2, h3, AddFile, hdrop, hAA, hAS, updAssoc, containsKeyB]

/-! ## The write schedule of the registrar (claims C3 and C8)

`genAssocStep` mirrors `addStep` and lists, in registration order, the
`(name, fields)` pairs that a (successful) run stores: every definition
subtree first, then the parent.  On error runs it over-approximates the
set of written names. -/

def genAssocStep : Nat → AddTask → List (String × List (String × Json))
  | 0, _ => []
  | fuel + 1, AddTask.schema name fields =>
    (match findField fields "definitions" with
     | some (Json.obj defsMap) =>
       genAssocStep fuel (AddTask.defs name defsMap) ++ [(name, fields)]
     | some _ => []
     | none => [(name, fields)])
  | _ + 1, AddTask.defs _ [] => []
  | fuel + 1, AddTask.defs name ((defKey, dv) :: rest) =>
    (match dv with
     | Json.obj defMap =>
       genAssocStep fuel (AddTask.schema (name ++ defKey) defMap) ++
         genAssocStep fuel (AddTask.defs name rest)
     | _ => [])

/-- Frame lemma: a name outside the write schedule is untouched by
`addStep`, whether the run succeeds or fails. -/
theorem addStep_frame : ∀ (fuel : Nat) (t : AddTask) (reg : Registry) (m : String),
    m ∉ (genAssocStep fuel t).map Prod.fst →
    lookupA (addStep fuel reg t).1 m = lookupA reg m := by
  intro fuel
  induction fuel with
  | zero => intro t reg m _; rfl
  | succ fuel ih =>
    intro t reg m hm
    match t with
    | AddTask.schema name fields =>
      cases hdefs : findField fields "definitions" with
      | none =>
        simp only [genAssocStep, hdefs, List.map_cons, List.map_nil] at hm
        have hne : m ≠ name := by
          intro hc
          exact hm (by simp [hc])
        simp only [addStep, hdefs]
        exact lookupA_updAssoc_ne _ _ _ _ hne
      | some dv =>
        cases dv with
        | obj dm =>
          simp only [genAssocStep, hdefs, List.map_append] at hm
          have hm1 : m ∉ (genAssocStep fuel (AddTask.defs name dm)).map Prod.fst := by
            intro hc
            exact hm (List.mem_append_left _ hc)
          have hne : m ≠ name := by
            intro hc
            exact hm (List.mem_append_right _ (by simp [hc]))
          simp only [addStep, hdefs]
          cases hinner : addStep fuel reg (AddTask.defs name dm) with
          | mk reg1 opt =>
            cases opt with
            | none =>
              show lookupA (updAssoc reg1 name (mkRegistered fields)) m = lookupA reg m
              rw [lookupA_updAssoc_ne _ _ _ _ hne]
              have := ih (AddTask.defs name dm) reg m hm1
              rw [hinner] at this
              exact this
            | some e =>
              show lookupA reg1 m = lookupA reg m
              have := ih (AddTask.defs name dm) reg m hm1
              rw [hinner] at this
              exact this
        | null => simp [addStep, hdefs]
        | bool b => simp [addStep, hdefs]
        | num n => simp [addStep, hdefs]
        | str s => simp [addStep, hdefs]
        | arr xs => simp [addStep, hdefs]
    | AddTask.defs name [] => simp [addStep]
    | AddTask.defs name ((defKey, dv) :: rest) =>
      cases dv with
      | obj defMap =>
        simp only [genAssocStep, List.map_append] at hm
        have hm1 : m ∉ (genAssocStep fuel
            (AddTask.schema (name ++ defKey) defMap)).map Prod.fst := by
          intro hc
          exact hm (List.mem_append_left _ hc)
        have hm2 : m ∉ (genAssocStep fuel (AddTask.defs name rest)).map Prod.fst := by
          intro hc
          exact hm (List.mem_append_right _ hc)
        simp only [addStep]
        cases hinner : addStep fuel reg (AddTask.schema (name ++ defKey) defMap) with
        | mk reg1 opt =>
          cases opt with
          | none =>
            show lookupA (addStep fuel reg1 (AddTask.defs name rest)).1 m = lookupA reg m
            rw [ih (AddTask.defs name rest) reg1 m hm2]
            have := ih (AddTask.schema (name ++ defKey) defMap) reg m hm1
            rw [hinner] at this
            exact this
          | some e =>
            show lookupA reg1 m = lookupA reg m
            have := ih (AddTask.schema (name ++ defKey) defMap) reg m hm1
            rw [hinner] at this
            exact this
      | null => simp [addStep]
      | bool b => simp [addStep]
      | num n => simp [addStep]
      | str s => simp [addStep]
      | arr xs => simp [addStep]

/-- Storage lemma: a successful `addStep` run stores, for every entry of
its write schedule, exactly the `registeredSchema` value built from that
entry's fields — provided the scheduled names are pairwise distinct. -/
theorem addStep_stores : ∀ (fuel : Nat) (t : AddTask) (reg reg2 : Registry),
    addStep fuel reg t = (reg2, none) →
    ((genAssocStep fuel t).map Prod.fst).Nodup →
    ∀ n flds, (n, flds) ∈ genAssocStep fuel t →
      lookupA reg2 n = some (mkRegistered flds) := by
  intro fuel
  induction fuel with
  | zero =>
    intro t reg reg2 h
    simp [addStep] at h
  | succ fuel ih =>
    intro t reg reg2 h hnd n flds hmem
    match t with
    | AddTask.schema name fields =>
      cases hdefs : findField fields "definitions" with
      | none =>
        simp only [addStep, hdefs] at h
        simp only [genAssocStep, hdefs] at hmem
        have h2 : updAssoc reg name (mkRegistered fields) = reg2 := by
          simpa using congrArg Prod.fst h
        simp only [List.mem_singleton] at hmem
        have hn : n = name := by simpa using congrArg Prod.fst hmem
        have hf : flds = fields := by simpa using congrArg Prod.snd hmem
        subst hn
        subst hf
        rw [← h2]
        exact lookupA_updAssoc_self _ _ _
      | some dv =>
        cases dv with
        | obj dm =>
          simp only [addStep, hdefs] at h
          simp only [genAssocStep, hdefs] at hmem hnd
          cases hinner : addStep fuel reg (AddTask.defs name dm) with
          | mk reg1 opt =>
            rw [hinner] at h
            cases opt with
            | some e => simp at h
            | none =>
              have h2 : updAssoc reg1 name (mkRegistered fields) = reg2 := by
                simpa using congrArg Prod.fst h
              simp only [List.map_append, List.map_cons, List.map_nil] at hnd
              rw [List.nodup_append] at hnd
              obtain ⟨hnd1, _, hdisj⟩ := hnd
              rcases List.mem_append.mp hmem with hm1 | hm1
              · have hlk := ih (AddTask.defs name dm) reg reg1 hinner hnd1 n flds hm1
                have hne : n ≠ name := by
                  intro hc
                  subst hc
                  exact hdisj (List.mem_map_of_mem Prod.fst hm1) (by simp)
                rw [← h2, lookupA_updAssoc_ne _ _ _ _ hne]
                exact hlk
              · simp only [List.mem_singleton] at hm1
                have hn : n = name := by simpa using congrArg Prod.fst hm1
                have hf : flds = fields := by simpa using congrArg Prod.snd hm1
                subst hn
                subst hf
                rw [← h2]
                exact lookupA_updAssoc_self _ _ _
        | null => simp [addStep, hdefs] at h
        | bool b => simp [addStep, hdefs] at h
        | num m2 => simp [addStep, hdefs] at h
        | str s => simp [addStep, hdefs] at h
        | arr xs => simp [addStep, hdefs] at h
    | AddTask.defs name [] =>
      simp only [genAssocStep] at hmem
      cases hmem
    | AddTask.defs name ((defKey, dv) :: rest) =>
      cases dv with
      | obj defMap =>
        simp only [addStep] at h
        simp only [genAssocStep] at hmem hnd
        cases hinner : addStep fuel reg (AddTask.schema (name ++ defKey) defMap) with
        | mk reg1 opt =>
          rw [hinner] at h
          cases opt with
          | some e => simp at h
          | none =>
            simp only at h
            simp only [List.map_append] at hnd
            rw [List.nodup_append] at hnd
            obtain ⟨hnd1, hnd2, hdisj⟩ := hnd
            rcases List.mem_append.mp hmem with hm1 | hm1
            · have hlk := ih (AddTask.schema (name ++ defKey) defMap) reg reg1
                hinner hnd1 n flds hm1
              have hnot : n ∉ (genAssocStep fuel (AddTask.defs name rest)).map Prod.fst := by
                intro hc
                exact hdisj (List.mem_map_of_mem Prod.fst hm1) hc
              have hframe := addStep_frame fuel (AddTask.defs name rest) reg1 n hnot
              rw [h] at hframe
              rw [hframe]
              exact hlk
            · exact ih (AddTask.defs name rest) reg1 reg2 h hnd2 n flds hm1
      | null => simp [addStep] at h
      | bool b => simp [addStep] at h
      | num m2 => simp [addStep] at h
      | str s => simp [addStep] at h
      | arr xs => simp [addStep] at h

/-- A successful schema run schedules its own `(name, fields)` entry. -/
theorem genAssoc_self_mem (fuel : Nat) (reg reg2 : Registry) (name : String)
    (fields : List (String × Json))
    (h : addStep fuel reg (AddTask.schema name fields) = (reg2, none)) :
    (name, fields) ∈ genAssocStep fuel (AddTask.schema name fields) := by
  cases fuel with
  | zero => simp [addStep] at h
  | succ fuel =>
    cases hdefs : findField fields "definitions" with
    | none => simp [genAssocStep, hdefs]
    | some dv =>
      cases dv with
      | obj dm =>
        simp only [genAssocStep, hdefs]
        exact List.mem_append_right _ (by simp)
      | null => simp [addStep, hdefs] at h
      | bool b => simp [addStep, hdefs] at h
      | num m => simp [addStep, hdefs] at h
      | str s => simp [addStep, hdefs] at h
      | arr xs => simp [addStep, hdefs] at h

/-- Extract the definitions-loop run from a successful schema run. -/
theorem addStep_schema_success_defs (fuel : Nat) (reg reg2 : Registry)
    (name : String) (fields dm : List (String × Json))
    (h : addStep (fuel + 1) reg (AddTask.schema name fields) = (reg2, none))
    (hdefs : findField fields "definitions" = some (Json.obj dm)) :
    ∃ reg1, addStep fuel reg (AddTask.defs name dm) = (reg1, none) ∧
      reg2 = updAssoc reg1 name (mkRegistered fields) := by
  simp only [addStep, hdefs] at h
  cases hinner : addStep fuel reg (AddTask.defs name dm) with
  | mk reg1 opt =>
    rw [hinner] at h
    cases opt with
    | some e => simp at h
    | none =>
      refine ⟨reg1, rfl, ?_⟩
      have := congrArg Prod.fst h
      simpa using this.symm

/-- In a successful definitions-loop run, every object-valued definition
contributes its composite-named entry to the write schedule. -/
theorem genAssoc_def_mem : ∀ (fuel : Nat) (dm : List (String × Json))
    (reg reg2 : Registry) (name : String),
    addStep fuel reg (AddTask.defs name dm) = (reg2, none) →
    ∀ (K : String) (dK : List (String × Json)), (K, Json.obj dK) ∈ dm →
      (name ++ K, dK) ∈ genAssocStep fuel (AddTask.defs name dm) := by
  intro fuel
  induction fuel with
  | zero => intro dm reg reg2 name h; simp [addStep] at h
  | succ fuel ih =>
    intro dm reg reg2 name h K dK hK
    cases dm with
    | nil => cases hK
    | cons p rest =>
      obtain ⟨defKey, dv⟩ := p
      cases dv with
      | obj defMap =>
        simp only [addStep] at h
        cases hinner : addStep fuel reg (AddTask.schema (name ++ defKey) defMap) with
        | mk reg1 opt =>
          rw [hinner] at h
          cases opt with
          | some e => simp at h
          | none =>
            simp only at h
            simp only [genAssocStep]
            rcases List.mem_cons.mp hK with hh | hh
            · have h1 : K = defKey := by simpa using congrArg Prod.fst hh
              have h2 : Json.obj dK = Json.obj defMap := by
                simpa using congrArg Prod.snd hh
              have h3 : dK = defMap := by
                cases h2
                rfl
              subst h1
              subst h3
              exact List.mem_append_left _
                (genAssoc_self_mem fuel reg reg1 (name ++ K) dK hinner)
            · exact List.mem_append_right _ (ih rest reg1 reg2 name h K dK hh)
      | null =>
        rcases List.mem_cons.mp hK with hh | hh
        · exact absurd (congrArg Prod.snd hh) (by simp)
        · simp [addStep] at h
      | bool b =>
        rcases List.mem_cons.mp hK with hh | hh
        · exact absurd (congrArg Prod.snd hh) (by simp)
        · simp [addStep] at h
      | num m =>
        rcases List.mem_cons.mp hK with hh | hh
        · exact absurd (congrArg Prod.snd hh) (by simp)
        · simp [addStep] at h
      | str s =>
        rcases List.mem_cons.mp hK with hh | hh
        · exact absurd (congrArg Prod.snd hh) (by simp)
        · simp [addStep] at h
      | arr xs =>
        rcases List.mem_cons.mp hK with hh | hh
        · exact absurd (congrArg Prod.snd hh) (by simp)
        · simp [addStep] at h

/-- Two-level membership: for a successful definitions-loop run, a nested
definition `M` inside an object definition `K` contributes its
`name ++ K ++ M` entry to the write schedule. -/
theorem genAssoc_def2_mem : ∀ (fuel : Nat) (dm : List (String × Json))
    (reg reg2 : Registry) (name : String),
    addStep fuel reg (AddTask.defs name dm) = (reg2, none) →
    ∀ (K : String) (dK dm2 : List (String × Json)) (M : String)
      (dM : List (String × Json)),
      (K, Json.obj dK) ∈ dm →
      findField dK "definitions" = some (Json.obj dm2) →
      (M, Json.obj dM) ∈ dm2 →
      (name ++ K ++ M, dM) ∈ genAssocStep fuel (AddTask.defs name dm) := by
  intro fuel
  induction fuel with
  | zero => intro dm reg reg2 name h; simp [addStep] at h
  | succ fuel ih =>
    intro dm reg reg2 name h K dK dm2 M dM hK hdefs2 hM
    cases dm with
    | nil => cases hK
    | cons p rest =>
      obtain ⟨defKey, dv⟩ := p
      cases dv with
      | obj defMap =>
        simp only [addStep] at h
        cases hinner : addStep fuel reg (AddTask.schema (name ++ defKey) defMap) with
        | mk reg1 opt =>
          rw [hinner] at h
          cases opt with
          | some e => simp at h
          | none =>
            simp only at h
            simp only [genAssocStep]
            rcases List.mem_cons.mp hK with hh | hh
            · have h1 : K = defKey := by simpa using congrArg Prod.fst hh
              have h2 : Json.obj dK = Json.obj defMap := by
                simpa using congrArg Prod.snd hh
              have h3 : dK = defMap := by
                cases h2
                rfl
              subst h1
              subst h3
              apply List.mem_append_left
              cases fuel with
              | zero => simp [addStep] at hinner
              | succ f2 =>
                obtain ⟨r0, hrun0, _⟩ := addStep_schema_success_defs f2 reg reg1
                  (name ++ K) dK dm2 hinner hdefs2
                have hmem2 := genAssoc_def_mem f2 dm2 reg r0 (name ++ K)
                  hrun0 M dM hM
                simp only [genAssocStep, hdefs2]
                exact List.mem_append_left _ hmem2
            · exact List.mem_append_right _
                (ih rest reg1 reg2 name h K dK dm2 M dM hh hdefs2 hM)
      | null =>
        rcases List.mem_cons.mp hK with hh | hh
        · exact absurd (congrArg Prod.snd hh) (by simp)
        · simp [addStep] at h
      | bool b =>
        rcases List.mem_cons.mp hK with hh | hh
        · exact absurd (congrArg Prod.snd hh) (by simp)
        · simp [addStep] at h
      | num m =>
        rcases List.mem_cons.mp hK with hh | hh
        · exact absurd (congrArg Prod.snd hh) (by simp)
        · simp [addStep] at h
      | str s =>
        rcases List.mem_cons.mp hK with hh | hh
        · exact absurd (congrArg Prod.snd hh) (by simp)
        · simp [addStep] at h
      | arr xs =>
        rcases List.mem_cons.mp hK with hh | hh
        · exact absurd (congrArg Prod.snd hh) (by simp)
        · simp [addStep] at h

/-! ## Claim C3: recursive definition flattening with composite names -/

def dKW : List (String × Json) := [("definitions", Json.obj [("M", Json.obj [])])]
def dmW : List (String × Json) := [("K", Json.obj dKW)]
def fieldsW : List (String × Json) := [("definitions", Json.obj dmW)]

def cfFields : List (String × Json) :=
  [("definitions", Json.obj [("", Json.obj [("type", Json.str "string")])])]

/-- C3 (amended): for a successful `AddSchema(P, ·)` run whose scheduled
composite names are pairwise distinct, every object-valued definition `K`
yields a registry entry named exactly `P ++ K` holding `defK` with its own
definitions stripped, a nested definition `M` of `defK` yields the entry
`P ++ K ++ M`, and the parent entry `P` stores its body with the
`definitions` key removed. -/
theorem addSchema_flattens_definitions (reg : Registry) (P : String)
    (fields dm dK : List (String × Json)) (K : String) (fuel : Nat)
    (reg2 : Registry)
    (hrun : addStep fuel reg (AddTask.schema P fields) = (reg2, none))
    (hnodup : ((genAssocStep fuel (AddTask.schema P fields)).map Prod.fst).Nodup)
    (hdefs : findField fields "definitions" = some (Json.obj dm))
    (hK : (K, Json.obj dK) ∈ dm) :
    lookupA reg2 (P ++ K) = some (mkRegistered dK) ∧
    lookupA reg2 P = some (mkRegistered fields) ∧
    (∀ (dm2 : List (String × Json)) (M : String) (dM : List (String × Json)),
      findField dK "definitions" = some (Json.obj dm2) →
      (M, Json.obj dM) ∈ dm2 →
      lookupA reg2 (P ++ K ++ M) = some (mkRegistered dM)) := by
  cases fuel with
  | zero => simp [addStep] at hrun
  | succ f =>
    obtain ⟨reg1, hdrun, _⟩ := addStep_schema_success_defs f reg reg2 P fields dm
      hrun hdefs
    have hmem1 : (P ++ K, dK) ∈ genAssocStep (f + 1) (AddTask.schema P fields) := by
      simp only [genAssocStep, hdefs]
      exact List.mem_append_left _ (genAssoc_def_mem f dm reg reg1 P hdrun K dK hK)
    have hmem0 := genAssoc_self_mem (f + 1) reg reg2 P fields hrun
    refine ⟨addStep_stores (f + 1) _ reg reg2 hrun hnodup _ _ hmem1,
            addStep_stores (f + 1) _ reg reg2 hrun hnodup _ _ hmem0, ?_⟩
    intro dm2 M dM hdefs2 hM
    have hmem2 : (P ++ K ++ M, dM) ∈ genAssocStep (f + 1) (AddTask.schema P fields) := by
      simp only [genAssocStep, hdefs]
      exact List.mem_append_left _
        (genAssoc_def2_mem f dm reg reg1 P hdrun K dK dm2 M dM hK hdefs2 hM)
    exact addStep_stores (f + 1) _ reg reg2 hrun hnodup _ _ hmem2

/-- Witness for C3 at a two-level nested input: `P` with definition `K`
containing definition `M`. -/
theorem addSchema_flattens_definitions_witness :
    lookupA (addStep 5 [] (AddTask.schema "P" fieldsW)).1 ("P" ++ "K")
      = some (mkRegistered dKW) := by
  have hrun : addStep 5 [] (AddTask.schema "P" fieldsW)
      = ((addStep 5 [] (AddTask.schema "P" fieldsW)).1, none) := by
    simp [addStep, findField, updAssoc, fieldsW, dmW, dKW]
  exact (addSchema_flattens_definitions [] "P" fieldsW dmW dKW "K" 5
    (addStep 5 [] (AddTask.schema "P" fieldsW)).1 hrun (by decide) rfl
    (by simp [dmW])).1

/-- C3 (counterexample): with the empty definition key, the composite name
`P ++ ""` collides with the parent name `P`; the parent's stripped body
overwrites the definition entry, so the registry does not hold the
definition body under `P + K` as the claim states. -/
theorem addSchema_flattening_counterexample :
    (addStep 3 [] (AddTask.schema "P" cfFields)).2 = none ∧
    lookupA (addStep 3 [] (AddTask.schema "P" cfFields)).1 ("P" ++ "")
      ≠ some (mkRegistered [("type", Json.str "string")]) := by
  have hsrc1 : (mkRegistered cfFields).source = "\x7b\x7d" := by
    simp [mkRegistered, cfFields, eraseField, jsonMarshal, jsize, jm, sortFields,
      insSortedF, jsonQuote, escChar]
    decide
  have hsrc2 : (mkRegistered [("type", Json.str "string")]).source
      = "\x7b\"type\":\"string\"\x7d" := by
    simp [mkRegistered, eraseField, jsonMarshal, jsize, jm, sortFields,
      insSortedF, jsonQuote, escChar]
    decide
  constructor
  · simp [addStep, findField, updAssoc, cfFields]
  · have heval : (addStep 3 [] (AddTask.schema "P" cfFields)).1
        = [("P", mkRegistered cfFields)] := by
      simp [addStep, findField, updAssoc, cfFields]
    rw [heval]
    have hP : ("P" : String) ++ "" = "P" := by decide
    rw [hP]
    simp only [lookupA, if_pos rfl]
    intro hcontra
    have h2 : mkRegistered cfFields = mkRegistered [("type", Json.str "string")] := by
      simpa using hcontra
    have h3 := congrArg RegisteredSchema.source h2
    rw [hsrc1, hsrc2] at h3
    exact absurd h3 (by decide)

/-! ## Claim C8: GetSchemas returns stripped, un-rewritten bodies -/

theorem lookupA_getSchemas (reg : Registry) (n : String) :
    lookupA (GetSchemas reg) n = (lookupA reg n).map RegisteredSchema.source := by
  induction reg with
  | nil => rfl
  | cons p rest ih =>
    obtain ⟨k, v⟩ := p
    by_cases h : k = n
    · simp [GetSchemas, lookupA, h]
    · simp only [GetSchemas, List.map_cons, lookupA, if_neg h]
      exact ih

/-- C8: `GetSchemas` returns a mapping whose keys are exactly the
registered names and whose values are the stored sources; for registries
produced by a successful `AddSchema` run (with distinct scheduled names),
each stored source is the re-marshalled body with the `definitions` key
removed, and the recorded required references are exactly the symbolic
`{Name}` captures scanned from that un-rewritten source — no synthetic
locator rewriting is ever stored. -/
theorem getSchemas_returns_original_bodies (reg : Registry) :
    ((GetSchemas reg).map Prod.fst = reg.map Prod.fst ∧
     ∀ n s, lookupA reg n = some s → lookupA (GetSchemas reg) n = some s.source) ∧
    (∀ (fuel : Nat) (reg0 reg2 : Registry) (name : String)
       (fields : List (String × Json)),
      addStep fuel reg0 (AddTask.schema name fields) = (reg2, none) →
      ((genAssocStep fuel (AddTask.schema name fields)).map Prod.fst).Nodup →
      ∀ n flds, (n, flds) ∈ genAssocStep fuel (AddTask.schema name fields) →
        lookupA (GetSchemas reg2) n =
          some (jsonMarshal (Json.obj (eraseField flds "definitions"))) ∧
        ∀ s, lookupA reg2 n = some s →
          s.requiredReferences = dedupKeep (findRefsStr s.source)) := by
  constructor
  · constructor
    · simp [GetSchemas]
    · intro n s h
      rw [lookupA_getSchemas, h]
      rfl
  · intro fuel reg0 reg2 name fields hrun hnodup n flds hmem
    have hst := addStep_stores fuel _ reg0 reg2 hrun hnodup n flds hmem
    constructor
    · rw [lookupA_getSchemas, hst]
      rfl
    · intro s hs
      rw [hst] at hs
      have hse : mkRegistered flds = s := by simpa using hs
      subst hse
      rfl

/-- Witness for C8 at a concrete registry and a concrete successful
`AddSchema` run. -/
theorem getSchemas_returns_original_bodies_witness :
    lookupA (GetSchemas [("A", RegisteredSchema.mk "s" [])]) "A" = some "s" :=
  (getSchemas_returns_original_bodies [("A", RegisteredSchema.mk "s" [])]).1.2
    "A" (RegisteredSchema.mk "s" []) rfl
